import Mathlib

/-!
Verification of the adaptive-continuous entanglement generation core
(repository: adaptive-continuous).

This file gives a shallow embedding, in Lean 4, of the parts of the
Python source relevant to the frozen claims:

* the entangled-pair cache of `AdaptiveContinuousProtocol`
  (`add_generated_entanglement_pair`, `match_generated_entanglement_pair`,
  `remove_entanglement_pair` in adaptive_continuous.py);
* the roulette-wheel neighbor selection (`select_neighbor`) and the
  periodic probability-table adaptation (`update_probability_table`);
* the heralding-time filter (`valid_trigger_time` in generation.py) and
  the MEAS_RES branch of `received_message`;
* the two-round (single-atom) generation state machine
  (`EntanglementGenerationAadaptive.update_memory`);
* the memory-swap path (`swap_two_memory` of both generation protocol
  variants and `MemoryManagerAdaptive.swap_two_memory`);
* the event-fired entry points of the single-heralded generation
  protocol (`ShEntanglementGenerationAadaptive.start` / `update_memory`
  / `emit_event`);
* the distributed quota counter `adaptive_memory_used` of the
  adaptive-continuous protocol.

Modelling conventions, used throughout:

* Python string identifiers (node names, memory names) are modelled by
  natural numbers (`Name`): all the source needs of them is decidable
  equality and a total order for `sorted(...)`; the reserved empty
  string used for the idle entry is modelled by the reserved value
  `emptyName = 0` (like the empty string among strings, it is the least
  identifier).
* Python floats (fidelities, probability weights) are modelled by exact
  rationals; simulation timestamps are integers (picoseconds).
* Side effects on collaborators declared external by the design
  (timeline scheduling, message transport, quantum-state physics) are
  recorded as explicit effect values or taken as function parameters;
  all control flow and all state mutation of the core itself is
  embedded directly from the source.
* A Python `raise` is modelled by `Except.error`.
-/

/-- Identifier type standing for Python string names (node and memory
names): only decidable equality and a total order are used by the
embedded code. -/
abbrev Name := Nat

/-- The reserved idle entry of the probability table, i.e. the Python
empty string (the least string, as 0 is the least `Name`). -/
def emptyName : Name := 0

/-- One endpoint of an entanglement pair: (node_name, memory_name). -/
abbrev EndPoint := Name × Name

/-- An entanglement pair of the adaptive-continuous cache:
((node_name, memory_name), (remote_node_name, remote_memory_name)). -/
abbrev EntPair := EndPoint × EndPoint

/-- Stable insertion of one element into a list with respect to a
boolean comparison, auxiliary to `pySorted`. -/
def sortInsert (le : α → α → Bool) (a : α) : List α → List α
  | [] => [a]
  | b :: bs => if le a b then a :: b :: bs else b :: sortInsert le a bs

/-- Stable sort with respect to a boolean comparison; models the Python
builtin `sorted(...)` (the comparisons used in this file are total
orders, so any stable sort has the same graph). -/
def pySorted (le : α → α → Bool) : List α → List α
  | [] => []
  | a :: as => sortInsert le a (pySorted le as)

/-- Lexicographic comparison of entanglement pairs (4-tuples of names),
the order used by the Python `sorted(self.generated_entanglement_pairs)`. -/
def epLe (a b : EntPair) : Bool :=
  if a.1.1 ≠ b.1.1 then a.1.1 ≤ b.1.1
  else if a.1.2 ≠ b.1.2 then a.1.2 ≤ b.1.2
  else if a.2.1 ≠ b.2.1 then a.2.1 ≤ b.2.1
  else a.2.2 ≤ b.2.2

/-- Cache of speculative entanglement pairs: the Python set
`generated_entanglement_pairs` is modelled as a duplicate-free list. -/
abbrev EPCache := List EntPair

/-- Embeds `AdaptiveContinuousProtocol.add_generated_entanglement_pair`
(adaptive_continuous.py): insert the pair unless the identical
(orientation included) pair is already present, in which case the call
is a logged no-op. -/
def add_generated_entanglement_pair (cache : EPCache) (p : EntPair) : EPCache :=
  if p ∈ cache then cache else p :: cache

/-- The same pair stored with its two endpoints in reversed order. -/
def epReverse (p : EntPair) : EntPair := (p.2, p.1)

/-- Embeds `AdaptiveContinuousProtocol.remove_entanglement_pair`
(adaptive_continuous.py): remove the pair, or the reversed pair, from
the cache; raise (modelled by `Except.error`) when neither orientation
is present. -/
def remove_entanglement_pair (cache : EPCache) (p : EntPair) :
    Except String EPCache :=
  if p ∈ cache then Except.ok (cache.erase p)
  else if epReverse p ∈ cache then Except.ok (cache.erase (epReverse p))
  else Except.error "entanglement pair does not exist"

/-- The candidate pairs considered by
`match_generated_entanglement_pair`: pairs of the cache, in Python
sorted order, whose first component is on `thisNode` and whose second
component is on `remoteNode`. -/
def matchCandidates (cache : EPCache) (thisNode remoteNode : Name) :
    List EntPair :=
  (pySorted epLe cache).filter
    (fun ep => ep.1.1 == thisNode && ep.2.1 == remoteNode)

/-- The freshest-selection loop of `match_generated_entanglement_pair`:
starting from `best_fidelity = 0` and `freshest_ep = None`, keep the
first pair whose recomputed fidelity strictly exceeds the best so far.
The fidelity recomputation `get_fidelity` (which calls the external
decoherence physics of the memories) is taken as the function
parameter `fid`. -/
def freshestLoop (fid : EntPair → ℚ) :
    List EntPair → Option EntPair → ℚ → Option EntPair
  | [], best, _ => best
  | ep :: eps, best, bestFid =>
      if fid ep > bestFid then freshestLoop fid eps (some ep) (fid ep)
      else freshestLoop fid eps best bestFid

/-- Embeds `AdaptiveContinuousProtocol.match_generated_entanglement_pair`
(adaptive_continuous.py). Returns `none` when no candidate exists;
returns the first candidate under strategy `random`; runs the
freshest-selection loop under strategy `freshest`; raises on any other
strategy. -/
def match_generated_entanglement_pair (strategy : String) (fid : EntPair → ℚ)
    (cache : EPCache) (thisNode remoteNode : Name) :
    Except String (Option EntPair) :=
  let pairs := matchCandidates cache thisNode remoteNode
  if pairs.length = 0 then Except.ok none
  else if strategy = "random" then Except.ok pairs.head?
  else if strategy = "freshest" then Except.ok (freshestLoop fid pairs none 0)
  else Except.error "strategy not supported"

/-- Running sums of a list starting from `s`; models
`itertools.accumulate` as used by `select_neighbor`. -/
def accumulate (s : ℚ) : List ℚ → List ℚ
  | [] => []
  | p :: ps => (s + p) :: accumulate (s + p) ps

/-- Fuel-indexed binary search loop of the Python `bisect_left`
(bisect module): narrow [lo, hi) keeping every index below lo strictly
smaller than x; the fuel only bounds the iteration count and
`a.length` is always enough. -/
def bisectLeftAux (a : List ℚ) (x : ℚ) : Nat → Nat → Nat → Nat
  | 0, lo, _ => lo
  | fuel + 1, lo, hi =>
      if lo < hi then
        let mid := (lo + hi) / 2
        if a.getD mid 0 < x then bisectLeftAux a x fuel (mid + 1) hi
        else bisectLeftAux a x fuel lo mid
      else lo

/-- The Python `bisect_left(a, x)`: insertion point of x in a. -/
def bisect_left (a : List ℚ) (x : ℚ) : Nat :=
  bisectLeftAux a x a.length 0 a.length

/-- Comparison used by `sorted(self.probability_table.items())`:
lexicographic on the (neighbor name, weight) item. -/
def itemLe (a b : Name × ℚ) : Bool :=
  if a.1 ≠ b.1 then a.1 ≤ b.1 else a.2 ≤ b.2

/-- Embeds `AdaptiveContinuousProtocol.select_neighbor`
(adaptive_continuous.py): sort the table items, accumulate the weights,
and index the neighbor list with `bisect_left` of the drawn uniform
sample; `none` models the IndexError raised when the index is past the
end. The uniform draw `random_number` is the parameter `sample`. -/
def select_neighbor (table : List (Name × ℚ)) (sample : ℚ) : Option Name :=
  let items := pySorted itemLe table
  let neighbors := items.map Prod.fst
  let probs := items.map Prod.snd
  let probsAccumulate := accumulate 0 probs
  let index := bisect_left probsAccumulate sample
  neighbors.get? index

/-- Step 1 of `update_probability_table`: the entanglement paths of
cache items (timestamp, path), scanned from the newest end, whose
timestamp is at least current_time - elapse. -/
def pathsWithin (cache : List (Int × List Name)) (now elapse : Int) :
    List (List Name) :=
  (cache.reverse.filter (fun item => decide (now - elapse ≤ item.1))).map
    Prod.snd

/-- Nodes adjacent to this node on one path: the entries just before
and just after the first occurrence of the node on the path. -/
def neighborsOnPath (path : List Name) (thisNode : Name) : List Name :=
  match path.findIdx? (· == thisNode) with
  | none => []
  | some i =>
      (if 1 ≤ i then [path.getD (i - 1) emptyName] else []) ++
      (if i + 2 ≤ path.length then [path.getD (i + 1) emptyName] else [])

/-- Step 2 of `update_probability_table`: the set `neighbor_in_path`
(membership in this list models membership in the Python set). -/
def neighborInPath (paths : List (List Name)) (thisNode : Name) : List Name :=
  paths.foldr (fun p acc => neighborsOnPath p thisNode ++ acc) []

/-- Embeds `AdaptiveContinuousProtocol.update_probability_table`
(adaptive_continuous.py). The first invocation only bumps the
invocation counter; an invocation with update_prob == False returns
unchanged; otherwise every table entry that is a (non-idle) neighbor on
a recent served path gains the fixed increment delta = 0.05 (the idle
entry gains it when no neighbor qualifies and the table has an idle
entry), and the table is then normalised entrywise by its sum. The
probability table dict is modelled as its item list (distinct keys). -/
def update_probability_table (count : Nat) (updateProb hasEmpty : Bool)
    (thisNode : Name) (cache : List (Int × List Name)) (now elapse : Int)
    (table : List (Name × ℚ)) : List (Name × ℚ) × Nat :=
  if count = 0 then (table, count + 1)
  else if updateProb = false then (table, count)
  else
    let paths := pathsWithin cache now elapse
    let ns := neighborInPath paths thisNode
    let delta : ℚ := 1 / 20
    let exist := table.any (fun kv => kv.1 ≠ emptyName && ns.contains kv.1)
    let bumped := table.map
      (fun kv => if kv.1 ≠ emptyName ∧ kv.1 ∈ ns then (kv.1, kv.2 + delta) else kv)
    let bumped2 :=
      if exist = false ∧ hasEmpty = true then
        bumped.map (fun kv => if kv.1 = emptyName then (kv.1, kv.2 + delta) else kv)
      else bumped
    let summ := (bumped2.map Prod.snd).sum
    (bumped2.map (fun kv => (kv.1, kv.2 / summ)), count + 1)

/-- Embeds `valid_trigger_time` (generation.py): the trigger time is
accepted when it lies within [target - resolution // 2,
target + resolution // 2]; Python // is floor division (`Int.fdiv`). -/
def valid_trigger_time (triggerTime targetTime resolution : Int) : Bool :=
  let lower := targetTime - resolution.fdiv 2
  let upper := targetTime + resolution.fdiv 2
  decide (lower ≤ triggerTime) && decide (triggerTime ≤ upper)

/-- State of a quantum-memory info record in the memory manager:
RAW / OCCUPIED / ENTANGLED. -/
inductive MemState
  | raw
  | occupied
  | entangled
deriving DecidableEq, Repr

/-- Resolution status of one generation protocol instance. -/
inductive EGStatus
  | inProgress
  | succeeded
  | failed
deriving DecidableEq, Repr

/-- Circuits the two-round protocol can run on its memory qstate:
the bit flip `_flip_circuit` and the phase flip `_z_circuit`. -/
inductive Gate
  | flip
  | zgate
deriving DecidableEq, Repr

/-- State of one `EntanglementGenerationAadaptive` (single-atom,
two-round Barrett-Kok) protocol instance, restricted to the fields the
`update_memory` / MEAS_RES logic reads and writes: `ent_round`,
`bsm_res[0]`, `bsm_res[1]`, `primary`, membership in
`owner.protocols` (`installed`), the memory-manager state of
`self.memory` (`memState`), the circuits applied so far (`gates`),
whether `_entanglement_succeed` or `_entanglement_fail` has been
reached (`status`) and `expected_time`. -/
structure EGAState where
  entRound : Nat
  bsmRes0 : Int
  bsmRes1 : Int
  primary : Bool
  installed : Bool
  memState : MemState
  gates : List Gate
  status : EGStatus
  expectedTime : Int
deriving DecidableEq, Repr

/-- Python list read `bsm_res[i]` with Python index semantics on the
two-element list (negative indices count from the end; out of range is
an IndexError, modelled by `none`). -/
def bsmResGet (s : EGAState) (i : Int) : Option Int :=
  if i = 0 ∨ i = -2 then some s.bsmRes0
  else if i = 1 ∨ i = -1 then some s.bsmRes1
  else none

/-- Python list write `bsm_res[i] = v`, same index semantics. -/
def bsmResSet (s : EGAState) (i : Int) (v : Int) : Option EGAState :=
  if i = 0 ∨ i = -2 then some { s with bsmRes0 := v }
  else if i = 1 ∨ i = -1 then some { s with bsmRes1 := v }
  else none

/-- Embeds the MEAS_RES branch of
`EntanglementGenerationAadaptive.received_message` (generation.py): a
report with a valid trigger time records the detector number if the
round has no result yet and resets the round result to -1 otherwise
(both detectors fired); an invalid report only logs. `none` models the
IndexError of an out-of-range round index. -/
def ega_received_meas_res (s : EGAState) (detector time resolution : Int) :
    Option EGAState :=
  if valid_trigger_time time s.expectedTime resolution then
    let i : Int := (s.entRound : Int) - 1
    match bsmResGet s i with
    | none => none
    | some cur =>
        if cur = -1 then bsmResSet s i detector
        else bsmResSet s i (-1)
  else some s

/-- Embeds `EntanglementGenerationAadaptive.update_memory`
(generation.py). Returns the new state and the Python return value
(`none` models the bare `return` of the not-installed guard). Round 1
always continues; round 2 continues (applying the flip circuit) when
round 1 recorded a detection; round 3 succeeds (applying the
conditional flip or phase-flip correction, recording the remote
endpoint and notifying the resource manager, which also retracts the
protocol) when round 2 recorded a detection; everything else fails,
reverting the memory to RAW and cancelling scheduled events (the
resource-manager notification of `_entanglement_succeed` /
`_entanglement_fail` also removes the instance from
`owner.protocols`). -/
def ega_update_memory (s : EGAState) : EGAState × Option Bool :=
  if s.installed = false then (s, none)
  else
    let s := { s with entRound := s.entRound + 1 }
    if s.entRound = 1 then (s, some true)
    else if s.entRound = 2 ∧ s.bsmRes0 ≠ -1 then
      ({ s with gates := s.gates ++ [Gate.flip] }, some true)
    else if s.entRound = 3 ∧ s.bsmRes1 ≠ -1 then
      let s :=
        if s.primary then { s with gates := s.gates ++ [Gate.flip] }
        else if s.bsmRes0 ≠ s.bsmRes1 then
          { s with gates := s.gates ++ [Gate.zgate] }
        else s
      ({ s with memState := MemState.entangled, status := EGStatus.succeeded, installed := false }, some true)
    else
      ({ s with memState := MemState.raw, status := EGStatus.failed, installed := false }, some false)

/-- Events fired at a single-atom generation protocol instance:
a MEAS_RES message from the relay, or an `update_memory` call. -/
inductive EGEvent
  | measRes (detector time resolution : Int)
  | updateMemory
deriving DecidableEq, Repr

/-- One event applied to the protocol state (an IndexError inside the
MEAS_RES handler aborts the handler before any mutation, leaving the
state unchanged). -/
def ega_step (s : EGAState) (e : EGEvent) : EGAState :=
  match e with
  | EGEvent.measRes d t r => (ega_received_meas_res s d t r).getD s
  | EGEvent.updateMemory => (ega_update_memory s).1

/-- A sequence of events applied to the protocol state. -/
def ega_run (s : EGAState) (evs : List EGEvent) : EGAState :=
  evs.foldl ega_step s

/-- An event that is a MEAS_RES report with a nonnegative detector
number (the relay reports detector indices 0 and 1). -/
def isMeasResNonNeg : EGEvent → Prop
  | EGEvent.measRes d _ _ => 0 ≤ d
  | EGEvent.updateMemory => False

/-- Number of MEAS_RES events of the list whose trigger time is valid
for the expected time `exp`. -/
def countValid (exp : Int) : List EGEvent → Nat
  | [] => 0
  | EGEvent.measRes _ t r :: es =>
      (if valid_trigger_time t exp r then 1 else 0) + countValid exp es
  | EGEvent.updateMemory :: es => countValid exp es

/-- The state of a single-atom generation protocol instance at the
start of its first round. -/
def egaInit (primary : Bool) (expectedTime : Int) : EGAState :=
  { entRound := 0, bsmRes0 := -1, bsmRes1 := -1, primary := primary,
    installed := true, memState := MemState.occupied, gates := [],
    status := EGStatus.inProgress, expectedTime := expectedTime }

/-- The entangled_memory dict of a Memory: remote node id and remote
memory id (None when not entangled). -/
structure EntRef where
  nodeId : Option Name
  memoId : Option Name
deriving DecidableEq, Repr

/-- The attributes of a Memory object exchanged by
`MemoryManagerAdaptive.swap_two_memory` (memory_manager.py), in the
order of its assignment lines; the last five exist only on
single-heralded memories and are exchanged only for them. The name,
memory_array, timeline, observers and receivers stay with the slot and
are not part of this record (slots are keyed by name). Values carried
by attributes the embedded logic never inspects are modelled as
integers. -/
structure MemAttrs where
  fidelity : ℚ
  rawFidelity : ℚ
  frequency : Int
  efficiency : ℚ
  coherenceTime : Int
  wavelength : Int
  qstateKey : Int
  encoding : Int
  previousBsm : Int
  entangledMemory : EntRef
  expirationEvent : Int
  excitedPhoton : Int
  nextExciteTime : Int
  decoherenceErrors : Int
  cutoffRatio : ℚ
  generationTime : Int
  lastUpdateTime : Int
  isInApplication : Bool
deriving DecidableEq, Repr

/-- The attributes of a MemoryInfo record exchanged by
`MemoryManagerAdaptive.swap_two_memory` (all of them except the index
and the memory reference, which stay with the slot). -/
structure MemInfoRec where
  state : MemState
  remoteNode : Option Name
  remoteMemo : Option Name
  fidelity : ℚ
  expireEvent : Int
  entangleTime : Int
deriving DecidableEq, Repr

/-- The memory array and memory map of one node, keyed by memory
name (the name stays with the slot under swaps, so name keys are
equivalent to index keys plus the name-to-index map). -/
structure NodeMem where
  mems : Name → MemAttrs
  infos : Name → MemInfoRec

/-- Pointwise update of a name-keyed map. -/
def updName (f : Name → α) (k : Name) (v : α) : Name → α :=
  fun n => if n = k then v else f n

/-- Embeds `MemoryManagerAdaptive.swap_two_memory` (memory_manager.py):
exchange every listed Memory attribute and every listed MemoryInfo
attribute between the two named slots; the five single-heralded
attributes are exchanged only when the memories are single heralded
(the `decoherence_errors in dir(...)` test). -/
def mm_swap_two_memory (singleHeralded : Bool) (nm : NodeMem) (n1 n2 : Name) :
    NodeMem :=
  let a := nm.mems n1
  let b := nm.mems n2
  let newA := if singleHeralded then b else { b with decoherenceErrors := a.decoherenceErrors, cutoffRatio := a.cutoffRatio, generationTime := a.generationTime, lastUpdateTime := a.lastUpdateTime, isInApplication := a.isInApplication }
  let newB := if singleHeralded then a else { a with decoherenceErrors := b.decoherenceErrors, cutoffRatio := b.cutoffRatio, generationTime := b.generationTime, lastUpdateTime := b.lastUpdateTime, isInApplication := b.isInApplication }
  { mems := updName (updName nm.mems n1 newA) n2 newB, infos := updName (updName nm.infos n1 (nm.infos n2)) n2 (nm.infos n1) }

/-- Embeds `MemoryManagerAdaptive.check_entangled_memory`
(memory_manager.py): a memory is entangled when its entangled_memory
node id is not None. -/
def check_entangled_memory (nm : NodeMem) (entName : Name) : Bool :=
  (nm.mems entName).entangledMemory.nodeId.isSome

/-- Modelled from the spec: `MemoryInfo.to_raw` of the external
sequence package (the spec: on failure or expiry the slot reverts to
RAW); the remote-endpoint reference and entanglement bookkeeping are
cleared. -/
def infoToRaw (i : MemInfoRec) : MemInfoRec :=
  { i with state := MemState.raw, remoteNode := none, remoteMemo := none, fidelity := 0, entangleTime := -1 }

/-- Modelled from the spec: the ENTANGLED transition of the external
sequence memory manager (the spec: on Success the memory transitions
to ENTANGLED, records the remote endpoint, sets fidelity). -/
def infoToEntangled (i : MemInfoRec) (m : MemAttrs) : MemInfoRec :=
  { i with state := MemState.entangled, remoteNode := m.entangledMemory.nodeId, remoteMemo := m.entangledMemory.memoId, fidelity := m.fidelity }

/-- The protocol-level state read and written by
`EntanglementGenerationAadaptive.swap_two_memory`: the node memory
model, membership in owner.protocols, the name of `self.memory` and
`self.remote_memory_name`. -/
structure AtomSwapCtx where
  nodeMem : NodeMem
  installed : Bool
  selfMemName : Name
  remoteMemoryName : Name

/-- The abort path of `swap_two_memory`:
`self.update_resource_manager(self.memory, MemoryInfo.RAW)`, i.e. the
resource manager reverts the occupied memory of the protocol to RAW and
retracts the protocol instance (resource_manager.py `update`). -/
def atom_swap_abort (ctx : AtomSwapCtx) : AtomSwapCtx :=
  { ctx with nodeMem := { ctx.nodeMem with infos := updName ctx.nodeMem.infos ctx.selfMemName (infoToRaw (ctx.nodeMem.infos ctx.selfMemName)) }, installed := false }

/-- Embeds `EntanglementGenerationAadaptive.swap_two_memory`
(generation.py, single-atom variant): re-validate that the donor slot
is still entangled and that the instance is still installed, aborting
to RAW otherwise; then exchange the two slots through the memory
manager, record the remote memory on the now-entangled slot, retract
the protocol through `update_swap_memory`, and revert the
now-occupied slot to RAW. -/
def atom_swap_two_memory (ctx : AtomSwapCtx) (occName entName : Name) :
    AtomSwapCtx :=
  if check_entangled_memory ctx.nodeMem entName = false then atom_swap_abort ctx
  else if ctx.installed = false then atom_swap_abort ctx
  else
    let nm1 := mm_swap_two_memory false ctx.nodeMem occName entName
    let m := nm1.mems occName
    let nm2 := { nm1 with mems := updName nm1.mems occName { m with entangledMemory := { m.entangledMemory with memoId := some ctx.remoteMemoryName } } }
    let nm3 := { nm2 with infos := updName nm2.infos occName { (nm2.infos occName) with remoteMemo := some ctx.remoteMemoryName } }
    let nm4 := { nm3 with infos := updName nm3.infos entName (infoToRaw (nm3.infos entName)) }
    { nodeMem := nm4, installed := false, selfMemName := occName, remoteMemoryName := ctx.remoteMemoryName }

/-- Embeds `get_entanglement_memory_name` (generation.py, identical in
both protocol variants): the memory of the pair that lies on this
node; raises when this node is not in the pair. -/
def get_entanglement_memory_name (ownName : Name) (p : EntPair) :
    Except String Name :=
  if p.1.1 = ownName then Except.ok p.1.2
  else if p.2.1 = ownName then Except.ok p.2.2
  else Except.error "own node not in entanglement pair"

/-- External side effects of the single-heralded generation protocol
entry points: messages sent through the node, timeline scheduling,
quantum-manager and remote-memory physics calls. -/
inductive ShEff
  | negotiateMsg (dst : Name) (qcDelay frequency : Int)
  | informEPMsg (dst : Name) (p : EntPair)
  | scheduleSwapEvent (time : Int) (occupiedMem entangledMem : Name)
  | qmSetBDS (fidelity : ℚ) (errors : ℚ × ℚ × ℚ)
  | decohereRemoteMemory (m : Option Name)
  | cancelScheduledEvents
  | memUpdatePlusState (m : Name)
  | memExcite (m : Name) (middle : Name)
deriving DecidableEq, Repr

/-- State of one `ShEntanglementGenerationAadaptive` (single-heralded)
protocol instance, together with the node-local state its entry points
read and write: the adaptive-continuous cache of the owner and the
node memory model. `bsm_res` holds detector trigger counts here. -/
structure ShState where
  entRound : Nat
  bsmRes0 : Int
  bsmRes1 : Int
  primary : Bool
  installed : Bool
  fromAppRequest : Bool
  nodeSentRMRequest : Bool
  matchedEP : Option EntPair
  ownName : Name
  memName : Name
  middleName : Name
  remoteNodeName : Name
  remoteMemoryName : Name
  status : EGStatus
  expectedTime : Int
  qcDelay : Int
  frequency : Int
  rawFidelity : ℚ
  rawEprErrors : ℚ × ℚ × ℚ
  qmHasSelfState : Bool
  nodeMem : NodeMem
  cache : EPCache
  strategy : String

/-- The resource-manager update `update_resource_manager(memory, st)`
of the single-heralded protocol (resource_manager.py `update`): set
the memory info according to the new state and retract the protocol
instance from owner.protocols (rule re-evaluation on the freed memory
is outside the modelled core). -/
def sh_rm_update (s : ShState) (memName : Name) (st : MemState) : ShState :=
  let i := s.nodeMem.infos memName
  let i2 := match st with
    | MemState.raw => infoToRaw i
    | MemState.entangled => infoToEntangled i (s.nodeMem.mems memName)
    | MemState.occupied => { i with state := MemState.occupied }
  { s with nodeMem := { s.nodeMem with infos := updName s.nodeMem.infos memName i2 }, installed := false }

/-- Embeds `ShEntanglementGenerationAadaptive.update_memory`
(generation.py). The `decohere` and `getBds` parameters are the
external decoherence physics (`bds_decohere`, `get_bds_fidelity`) of
the memories. Round 1 continues; round 2 succeeds exactly when both
detectors were triggered at least once (assigning the raw Bell
diagonal state when the qstate key is new, decohering both memories,
then `_entanglement_succeed`), and fails otherwise (scheduled events
cancelled, memory reverted to RAW); later rounds return True with no
action. -/
def sh_update_memory (decohere : MemAttrs → MemAttrs) (getBds : MemAttrs → ℚ)
    (s : ShState) : ShState × Option Bool × List ShEff :=
  if s.installed = false then (s, none, [])
  else
    let s1 := { s with entRound := s.entRound + 1 }
    if s1.entRound = 1 then (s1, some true, [])
    else if s1.entRound = 2 then
      if 1 ≤ s1.bsmRes0 ∧ 1 ≤ s1.bsmRes1 then
        let p := if s1.qmHasSelfState = false then ({ s1 with nodeMem := { s1.nodeMem with mems := updName s1.nodeMem.mems s1.memName (decohere (s1.nodeMem.mems s1.memName)) } }, [ShEff.qmSetBDS s1.rawFidelity s1.rawEprErrors, ShEff.decohereRemoteMemory (some s1.remoteMemoryName)]) else (s1, [])
        let s2 := p.1
        let m := s2.nodeMem.mems s2.memName
        let m2 := { m with entangledMemory := { nodeId := some s2.remoteNodeName, memoId := some s2.remoteMemoryName }, fidelity := getBds m }
        let s3 := { s2 with nodeMem := { s2.nodeMem with mems := updName s2.nodeMem.mems s2.memName m2 }, status := EGStatus.succeeded }
        (sh_rm_update s3 s3.memName MemState.entangled, some true, p.2)
      else
        let s2 := { s1 with status := EGStatus.failed }
        (sh_rm_update s2 s2.memName MemState.raw, some false, [ShEff.cancelScheduledEvents])
    else (s1, some true, [])

/-- Embeds `ShEntanglementGenerationAadaptive.emit_event`
(generation.py): return with no action when the instance is no longer
valid; otherwise set the memory to the plus state in round 1 and
excite it toward the relay. -/
def sh_emit_event (s : ShState) : ShState × List ShEff :=
  if s.installed = false then (s, [])
  else
    let effs := if s.entRound = 1 then [ShEff.memUpdatePlusState s.memName] else []
    (s, effs ++ [ShEff.memExcite s.memName s.middleName])

/-- Embeds the MEAS_RES branch of
`ShEntanglementGenerationAadaptive.received_message` (generation.py):
a report with a valid trigger time increments the trigger count of the
reported detector (Python list indexing on the two-element count list;
`none` models an IndexError); an invalid report is ignored. -/
def sh_received_meas_res (s : ShState) (detector time resolution : Int) :
    Option ShState :=
  if valid_trigger_time time s.expectedTime resolution then
    if detector = 0 ∨ detector = -2 then some { s with bsmRes0 := s.bsmRes0 + 1 }
    else if detector = 1 ∨ detector = -1 then some { s with bsmRes1 := s.bsmRes1 + 1 }
    else none
  else some s

/-- Embeds `ShEntanglementGenerationAadaptive.swap_two_memory`
(generation.py): re-validate that the donor slot is still entangled
and the instance still installed, aborting to RAW otherwise; then
refresh the entangled pair fidelity (decohering both halves when the
remote memory lookup succeeds, the fidelity writeback running in the
`finally`), exchange the two slots through the memory manager, record
the remote memory on `self.memory`, retract the protocol and revert
the now-occupied donor slot to RAW. -/
def sh_swap_two_memory (decohere : MemAttrs → MemAttrs)
    (getBds : MemAttrs → ℚ) (remoteFound : Bool) (s : ShState)
    (occName entName : Name) : ShState × List ShEff :=
  if check_entangled_memory s.nodeMem entName = false then
    (sh_rm_update s s.memName MemState.raw, [])
  else if s.installed = false then
    (sh_rm_update s s.memName MemState.raw, [])
  else
    let nm0 := s.nodeMem
    let p := if remoteFound then ({ nm0 with mems := updName nm0.mems entName (decohere (nm0.mems entName)) }, [ShEff.decohereRemoteMemory ((nm0.infos entName).remoteMemo)]) else (nm0, [])
    let nm1 := p.1
    let bds := getBds (nm1.mems entName)
    let nm2 := { nm1 with mems := updName nm1.mems entName { (nm1.mems entName) with fidelity := bds }, infos := updName nm1.infos entName { (nm1.infos entName) with fidelity := bds } }
    let nm3 := mm_swap_two_memory true nm2 occName entName
    let m := nm3.mems s.memName
    let nm4 := { nm3 with mems := updName nm3.mems s.memName { m with entangledMemory := { m.entangledMemory with memoId := some s.remoteMemoryName } } }
    let nm5 := { nm4 with infos := updName nm4.infos s.memName { (nm4.infos s.memName) with remoteMemo := some s.remoteMemoryName } }
    let nm6 := { nm5 with infos := updName nm5.infos entName (infoToRaw (nm5.infos entName)) }
    ({ s with nodeMem := nm6, installed := false }, p.2)

/-- Embeds `ShEntanglementGenerationAadaptive.start` (generation.py):
return with no action when the instance is not installed; otherwise
run one `update_memory` round and, when it continues, either start the
NEGOTIATE handshake, or consume a cached pre-generated entanglement
pair (matching it, removing it from the cache, informing the remote
endpoint and scheduling the local swap), or perform the swap directly
when a pair was already informed (reverting to RAW when that fails);
the non-primary side matches and informs only for app requests that
have not gone through resource-management pairing. `Except.error`
models an uncaught Python exception propagating out of `start`. -/
def sh_start (qcDelayMiddle ccDelayRemote now : Int)
    (decohere : MemAttrs → MemAttrs) (getBds : MemAttrs → ℚ)
    (remoteFound : Bool) (fid : EntPair → ℚ) (s : ShState) :
    Except String (ShState × List ShEff) :=
  if s.installed = false then Except.ok (s, [])
  else
    let r := sh_update_memory decohere getBds s
    let s1 := r.1
    let effUM := r.2.2
    if r.2.1 ≠ some true then Except.ok (s1, effUM)
    else if s1.primary then
      if s1.fromAppRequest = false then
        Except.ok ({ s1 with qcDelay := qcDelayMiddle }, effUM ++ [ShEff.negotiateMsg s1.remoteNodeName qcDelayMiddle s1.frequency])
      else
        match s1.matchedEP with
        | none =>
          match match_generated_entanglement_pair s1.strategy fid s1.cache s1.ownName s1.remoteNodeName with
          | Except.error e => Except.error e
          | Except.ok none =>
              Except.ok ({ s1 with qcDelay := qcDelayMiddle }, effUM ++ [ShEff.negotiateMsg s1.remoteNodeName qcDelayMiddle s1.frequency])
          | Except.ok (some mep) =>
            match remove_entanglement_pair s1.cache mep with
            | Except.error e => Except.error e
            | Except.ok cache2 =>
              match get_entanglement_memory_name s1.ownName mep with
              | Except.error e => Except.error e
              | Except.ok entName =>
                  Except.ok ({ s1 with cache := cache2 }, effUM ++ [ShEff.informEPMsg s1.remoteNodeName mep, ShEff.scheduleSwapEvent (now + ccDelayRemote) s1.memName entName])
        | some mep =>
          match get_entanglement_memory_name s1.ownName mep with
          | Except.error _ => Except.ok (sh_rm_update s1 s1.memName MemState.raw, effUM)
          | Except.ok entName =>
            match remove_entanglement_pair s1.cache mep with
            | Except.error _ => Except.ok (sh_rm_update s1 s1.memName MemState.raw, effUM)
            | Except.ok cache2 =>
              let q := sh_swap_two_memory decohere getBds remoteFound { s1 with cache := cache2 } s1.memName entName
              Except.ok (q.1, effUM ++ q.2)
    else
      if s1.fromAppRequest = true ∧ s1.nodeSentRMRequest = false then
        match match_generated_entanglement_pair s1.strategy fid s1.cache s1.ownName s1.remoteNodeName with
        | Except.error e => Except.error e
        | Except.ok none => Except.ok ({ s1 with matchedEP := none }, effUM)
        | Except.ok (some mep) =>
          match remove_entanglement_pair s1.cache mep with
          | Except.error e => Except.error e
          | Except.ok cache2 =>
            match get_entanglement_memory_name s1.ownName mep with
            | Except.error e => Except.error e
            | Except.ok entName =>
                Except.ok ({ s1 with matchedEP := some mep, cache := cache2 }, effUM ++ [ShEff.informEPMsg s1.remoteNodeName mep, ShEff.scheduleSwapEvent (now + ccDelayRemote) s1.memName entName])
      else Except.ok (s1, effUM)

/-- Concrete memory attributes for witnesses: a raw slot. -/
def memAttrs0 : MemAttrs :=
  { fidelity := 0, rawFidelity := 9/10, frequency := 2000, efficiency := 1/2, coherenceTime := 10, wavelength := 500, qstateKey := 7, encoding := 0, previousBsm := -1, entangledMemory := { nodeId := none, memoId := none }, expirationEvent := 0, excitedPhoton := 0, nextExciteTime := 0, decoherenceErrors := 0, cutoffRatio := 1/2, generationTime := 0, lastUpdateTime := 0, isInApplication := false }

/-- Concrete memory attributes for witnesses: a slot entangled with
memory 20 on node 2. -/
def memAttrs1 : MemAttrs :=
  { memAttrs0 with fidelity := 9/10, entangledMemory := { nodeId := some 2, memoId := some 20 } }

/-- Concrete memory info for witnesses: an occupied slot. -/
def memInfo0 : MemInfoRec :=
  { state := MemState.occupied, remoteNode := none, remoteMemo := none, fidelity := 0, expireEvent := 0, entangleTime := -1 }

/-- Concrete single-heralded protocol state for witnesses; `installed`
is false (the instance has been retracted). -/
def shState0 : ShState :=
  { entRound := 1, bsmRes0 := 0, bsmRes1 := 0, primary := true, installed := false, fromAppRequest := true, nodeSentRMRequest := false, matchedEP := none, ownName := 1, memName := 10, middleName := 5, remoteNodeName := 2, remoteMemoryName := 20, status := EGStatus.inProgress, expectedTime := 0, qcDelay := 0, frequency := 2000, rawFidelity := 9/10, rawEprErrors := (1/3, 1/3, 1/3), qmHasSelfState := false, nodeMem := { mems := fun _ => memAttrs0, infos := fun _ => memInfo0 }, cache := [], strategy := "freshest" }

/-- Concrete single-atom swap context for witnesses: the donor slot is
no longer entangled. -/
def atomCtx0 : AtomSwapCtx :=
  { nodeMem := { mems := fun _ => memAttrs0, infos := fun _ => memInfo0 }, installed := true, selfMemName := 10, remoteMemoryName := 20 }

/-- Messages of the adaptive-continuous protocol that touch the
`adaptive_memory_used` counter (adaptive_continuous.py): a REQUEST
carries its sender and receiver; a RESPOND travels back to the
requester (answer False or True). CACHE / EXPIRE / INFORM_EP messages
never touch the counter and are omitted. -/
inductive ACMsg
  | request (src dst : Name)
  | respondFalse (dst : Name)
  | respondTrue (dst : Name)
deriving DecidableEq, Repr

/-- Global state of the adaptive-continuous quota system: per node the
`adaptive_max_memory` bound and the `adaptive_memory_used` counter,
per node the number of loaded AC reservations whose
`adaptive_memory_used_minus_one` event (scheduled by
`load_rules_adaptive`, reservation.py) has not fired yet, and the
multiset of counter-relevant messages in flight (as a list). -/
structure ACNet where
  maxMem : Name → Int
  used : Name → Int
  loaded : Name → Int
  msgs : List ACMsg

/-- Messages whose consumption the initiator side of the handshake is
still owed: a REQUEST this node sent (its RESPOND is still to be
produced) or a RESPOND travelling back to this node. -/
def isOutstanding (n : Name) : ACMsg → Bool
  | ACMsg.request src _ => src == n
  | ACMsg.respondFalse dst => dst == n
  | ACMsg.respondTrue dst => dst == n

/-- Number of outstanding handshake messages of node n. -/
def outstanding (s : ACNet) (n : Name) : Int :=
  (s.msgs.countP (isOutstanding n) : Int)

/-- The transitions of the adaptive-continuous quota system, one per
counter-relevant code path of adaptive_continuous.py.

* `noop`: the `start` paths that leave the counter where it was when
  the handler returns — quota full (start line 127), idle neighbor
  selected, and local admission failure (increment at line 139
  compensated by the decrement at line 152), all of which only
  reschedule a future start event.
* `startRequest`: `start` with quota available and local admission
  granted — the counter is incremented and a REQUEST is sent.
* `recvRequestAccept` / `recvRequestReject`: `received_message`
  REQUEST — on quota available and successful admission the counter is
  incremented, rules are loaded (scheduling one future
  `adaptive_memory_used_minus_one`) and RESPOND(True) is sent back;
  otherwise RESPOND(False) is sent back.
* `recvRespondFalse`: `received_message` RESPOND with answer False —
  timecards are cleared and the counter is decremented.
* `recvRespondTrue`: `received_message` RESPOND with answer True — the
  initiator loads its rules (scheduling one future
  `adaptive_memory_used_minus_one`); the counter is unchanged.
* `minusOne`: a scheduled `adaptive_memory_used_minus_one` event fires
  (each firing consumes one scheduled event): the counter is
  decremented after the `assert adaptive_memory_used > 0`. -/
inductive ACStep : ACNet → ACNet → Prop
  | noop (s : ACNet) : ACStep s s
  | startRequest (s : ACNet) (n m : Name) (h : s.used n < s.maxMem n) :
      ACStep s { s with used := updName s.used n (s.used n + 1), msgs := ACMsg.request n m :: s.msgs }
  | recvRequestAccept (s : ACNet) (n m : Name) (l1 l2 : List ACMsg)
      (hmsg : s.msgs = l1 ++ ACMsg.request n m :: l2)
      (hq : s.used m < s.maxMem m) :
      ACStep s { s with used := updName s.used m (s.used m + 1), loaded := updName s.loaded m (s.loaded m + 1), msgs := ACMsg.respondTrue n :: (l1 ++ l2) }
  | recvRequestReject (s : ACNet) (n m : Name) (l1 l2 : List ACMsg)
      (hmsg : s.msgs = l1 ++ ACMsg.request n m :: l2) :
      ACStep s { s with msgs := ACMsg.respondFalse n :: (l1 ++ l2) }
  | recvRespondFalse (s : ACNet) (n : Name) (l1 l2 : List ACMsg)
      (hmsg : s.msgs = l1 ++ ACMsg.respondFalse n :: l2) :
      ACStep s { s with used := updName s.used n (s.used n - 1), msgs := l1 ++ l2 }
  | recvRespondTrue (s : ACNet) (n : Name) (l1 l2 : List ACMsg)
      (hmsg : s.msgs = l1 ++ ACMsg.respondTrue n :: l2) :
      ACStep s { s with loaded := updName s.loaded n (s.loaded n + 1), msgs := l1 ++ l2 }
  | minusOne (s : ACNet) (n : Name) (h : 0 < s.loaded n) :
      ACStep s { s with used := updName s.used n (s.used n - 1), loaded := updName s.loaded n (s.loaded n - 1) }

/-- The initial state: no memory used, no loaded AC reservation, no
message in flight. -/
def acInit (maxMem : Name → Int) : ACNet :=
  { maxMem := maxMem, used := fun _ => 0, loaded := fun _ => 0, msgs := [] }

/-- The inductive invariant of the quota system: the loaded-reservation
count is nonnegative, the counter equals outstanding handshake
messages plus loaded reservations, and the counter respects the
quota. -/
def ACInv (s : ACNet) : Prop :=
  ∀ n, 0 ≤ s.loaded n ∧ s.used n = outstanding s n + s.loaded n ∧
    s.used n ≤ s.maxMem n

theorem sortInsert_perm (le : α → α → Bool) (a : α) (l : List α) :
    List.Perm (sortInsert le a l) (a :: l) := by
  induction l with
  | nil => exact List.Perm.refl _
  | cons b bs ih =>
      by_cases h : le a b
      · simp [sortInsert, h]
      · simp only [sortInsert, h, Bool.false_eq_true, if_false]
        exact List.Perm.trans (List.Perm.cons b ih) (List.Perm.swap a b bs)

theorem pySorted_perm (le : α → α → Bool) (l : List α) :
    List.Perm (pySorted le l) l := by
  induction l with
  | nil => exact List.Perm.refl _
  | cons a as ih =>
      exact List.Perm.trans (sortInsert_perm le a (pySorted le as))
        (List.Perm.cons a ih)

theorem mem_pySorted (le : α → α → Bool) (l : List α) (a : α) :
    a ∈ pySorted le l ↔ a ∈ l :=
  (pySorted_perm le l).mem_iff

theorem freshestLoop_spec (fid : EntPair → ℚ) (l : List EntPair) :
    ∀ best bestFid,
      freshestLoop fid l best bestFid = best ∧ (∀ ep ∈ l, fid ep ≤ bestFid) ∨
      ∃ ep ∈ l, freshestLoop fid l best bestFid = some ep ∧
        bestFid < fid ep ∧ ∀ q ∈ l, fid q ≤ fid ep := by
  induction l with
  | nil => intro best bestFid; exact Or.inl ⟨rfl, by simp⟩
  | cons ep eps ih =>
      intro best bestFid
      by_cases h : fid ep > bestFid
      · rcases ih (some ep) (fid ep) with ⟨heq, hle⟩ | ⟨q, hq, heq, hlt, hle⟩
        · refine Or.inr ⟨ep, by simp, ?_, h, ?_⟩
          · simpa [freshestLoop, h] using heq
          · intro q hq
            rcases List.mem_cons.mp hq with rfl | hq
            · exact le_refl _
            · exact hle q hq
        · refine Or.inr ⟨q, List.mem_cons_of_mem _ hq, ?_, lt_trans h hlt, ?_⟩
          · simpa [freshestLoop, h] using heq
          · intro r hr
            rcases List.mem_cons.mp hr with rfl | hr
            · exact le_of_lt hlt
            · exact hle r hr
      · push_neg at h
        rcases ih best bestFid with ⟨heq, hle⟩ | ⟨q, hq, heq, hlt, hle⟩
        · refine Or.inl ⟨?_, ?_⟩
          · simpa [freshestLoop, not_lt.mpr h] using heq
          · intro q hq
            rcases List.mem_cons.mp hq with rfl | hq
            · exact h
            · exact hle q hq
        · refine Or.inr ⟨q, List.mem_cons_of_mem _ hq, ?_, hlt, ?_⟩
          · simpa [freshestLoop, not_lt.mpr h] using heq
          · intro r hr
            rcases List.mem_cons.mp hr with rfl | hr
            · exact le_of_lt (lt_of_le_of_lt h hlt)
            · exact hle r hr

theorem matchCandidates_mem (cache : EPCache) (A B : Name) (ep : EntPair) :
    ep ∈ matchCandidates cache A B ↔ ep ∈ cache ∧ ep.1.1 = A ∧ ep.2.1 = B := by
  unfold matchCandidates
  rw [List.mem_filter, mem_pySorted]
  simp [Bool.and_eq_true]

/-- C3: `match_generated_entanglement_pair` returns `None` when no
stored pair lies between the two endpoints; under strategy `freshest`
it returns a stored candidate of maximal recomputed fidelity (the
fidelity of a stored entangled pair is positive, which the selection
loop with its initial best fidelity 0 requires); under strategy
`random` it returns some stored candidate; any other strategy raises
(once candidates exist; with no candidate the `None` return precedes
the strategy dispatch). -/
theorem c3_match_generated_entanglement_pair_spec (fid : EntPair → ℚ)
    (cache : EPCache) (A B : Name) :
    ((∀ ep ∈ cache, ¬((ep.1.1 = A ∧ ep.2.1 = B) ∨ (ep.1.1 = B ∧ ep.2.1 = A))) →
      ∀ strat, match_generated_entanglement_pair strat fid cache A B =
        Except.ok none) ∧
    (matchCandidates cache A B ≠ [] →
      (∃ ep ∈ matchCandidates cache A B,
        match_generated_entanglement_pair "random" fid cache A B =
          Except.ok (some ep)) ∧
      ((∀ ep ∈ matchCandidates cache A B, 0 < fid ep) →
        ∃ ep ∈ matchCandidates cache A B,
          match_generated_entanglement_pair "freshest" fid cache A B =
            Except.ok (some ep) ∧
          ∀ q ∈ matchCandidates cache A B, fid q ≤ fid ep) ∧
      (∀ strat, strat ≠ "random" → strat ≠ "freshest" →
        match_generated_entanglement_pair strat fid cache A B =
          Except.error "strategy not supported")) := by
  constructor
  · intro hno strat
    have hempty : matchCandidates cache A B = [] := by
      rw [List.eq_nil_iff_forall_not_mem]
      intro ep hep
      rcases (matchCandidates_mem cache A B ep).mp hep with ⟨hmem, h1, h2⟩
      exact hno ep hmem (Or.inl ⟨h1, h2⟩)
    unfold match_generated_entanglement_pair
    simp [hempty]
  · intro hne
    have hlen : (matchCandidates cache A B).length ≠ 0 := by
      simpa [List.length_eq_zero] using hne
    refine ⟨?_, ?_, ?_⟩
    · rcases List.exists_mem_of_ne_nil _ hne with ⟨ep, hep⟩
      obtain ⟨hd, tl, hcons⟩ := List.exists_cons_of_ne_nil hne
      refine ⟨hd, by simp [hcons], ?_⟩
      unfold match_generated_entanglement_pair
      simp [hlen, hcons]
    · intro hpos
      rcases freshestLoop_spec fid (matchCandidates cache A B) none 0 with
        ⟨_, hall⟩ | ⟨ep, hep, heq, _, hmax⟩
      · rcases List.exists_mem_of_ne_nil _ hne with ⟨ep, hep⟩
        exact absurd (hall ep hep) (not_le.mpr (hpos ep hep))
      · refine ⟨ep, hep, ?_, hmax⟩
        unfold match_generated_entanglement_pair
        simp [hlen, heq]
    · intro strat h1 h2
      unfold match_generated_entanglement_pair
      simp [hlen, h1, h2]

/-- C3 witness, at a concrete cache holding two candidate pairs of
fidelity 1/2 and 3/4 and one pair between other endpoints. -/
theorem c3_match_generated_entanglement_pair_spec_witness :
    ∃ ep ∈ matchCandidates [((1, 10), (2, 20)), ((1, 11), (2, 21)), ((3, 12), (4, 22))] 1 2,
      match_generated_entanglement_pair "freshest"
        (fun p => if p = ((1, 10), (2, 20)) then 1/2 else 3/4)
        [((1, 10), (2, 20)), ((1, 11), (2, 21)), ((3, 12), (4, 22))] 1 2 =
        Except.ok (some ep) ∧
      ∀ q ∈ matchCandidates [((1, 10), (2, 20)), ((1, 11), (2, 21)), ((3, 12), (4, 22))] 1 2,
        (fun p => if p = ((1, 10), (2, 20)) then 1/2 else (3/4 : ℚ)) q ≤
        (fun p => if p = ((1, 10), (2, 20)) then 1/2 else (3/4 : ℚ)) ep :=
  ((c3_match_generated_entanglement_pair_spec
      (fun p => if p = ((1, 10), (2, 20)) then 1/2 else 3/4)
      [((1, 10), (2, 20)), ((1, 11), (2, 21)), ((3, 12), (4, 22))] 1 2).2
    (by decide)).2.1 (by intro ep hep; fin_cases hep <;> norm_num)

/-- C4: `remove_entanglement_pair` deletes exactly one occurrence from
the cache, in the stored orientation when present, else in the reversed
orientation; when neither orientation is present it raises (a hard
failure: the Python exception propagates before any mutation, so the
cache is unchanged, which in this embedding is visible as the absence
of any `Except.ok` result cache). -/
theorem c4_remove_entanglement_pair_spec (cache : EPCache) (p : EntPair)
    (hnodup : cache.Nodup) :
    (p ∈ cache →
      remove_entanglement_pair cache p = Except.ok (cache.erase p) ∧
      (cache.erase p).length + 1 = cache.length ∧
      p ∉ cache.erase p ∧
      ∀ q ∈ cache, q ≠ p → q ∈ cache.erase p) ∧
    (p ∉ cache → epReverse p ∈ cache →
      remove_entanglement_pair cache p =
        Except.ok (cache.erase (epReverse p)) ∧
      (cache.erase (epReverse p)).length + 1 = cache.length ∧
      epReverse p ∉ cache.erase (epReverse p) ∧
      ∀ q ∈ cache, q ≠ epReverse p → q ∈ cache.erase (epReverse p)) ∧
    (p ∉ cache → epReverse p ∉ cache →
      remove_entanglement_pair cache p =
        Except.error "entanglement pair does not exist") := by
  refine ⟨?_, ?_, ?_⟩
  · intro hp
    refine ⟨by simp [remove_entanglement_pair, hp], ?_, ?_, ?_⟩
    · have h1 := List.length_erase_of_mem hp
      have h2 := List.length_pos_of_mem hp
      omega
    · exact fun h => (hnodup.mem_erase_iff.mp h).1 rfl
    · intro q hq hne
      exact hnodup.mem_erase_iff.mpr ⟨hne, hq⟩
  · intro hp hrev
    refine ⟨by simp [remove_entanglement_pair, hp, hrev], ?_, ?_, ?_⟩
    · have h1 := List.length_erase_of_mem hrev
      have h2 := List.length_pos_of_mem hrev
      omega
    · exact fun h => (hnodup.mem_erase_iff.mp h).1 rfl
    · intro q hq hne
      exact hnodup.mem_erase_iff.mpr ⟨hne, hq⟩
  · intro hp hrev
    simp [remove_entanglement_pair, hp, hrev]

/-- C4 witness: removing a pair present only in reversed orientation
from a two-element cache, and the raising branch at an empty cache. -/
theorem c4_remove_entanglement_pair_spec_witness :
    (remove_entanglement_pair [((2, 20), (1, 10)), ((3, 30), (4, 40))] ((1, 10), (2, 20)) =
      Except.ok [((3, 30), (4, 40))] ∧
      ([((2, 20), (1, 10)), ((3, 30), (4, 40))].erase
        (epReverse ((1, 10), (2, 20)))).length + 1 = 2 ∧
      epReverse ((1, 10), (2, 20)) ∉
        [((2, 20), (1, 10)), ((3, 30), (4, 40))].erase (epReverse ((1, 10), (2, 20))) ∧
      ∀ q ∈ [((2, 20), (1, 10)), ((3, 30), (4, 40))], q ≠ epReverse ((1, 10), (2, 20)) →
        q ∈ [((2, 20), (1, 10)), ((3, 30), (4, 40))].erase (epReverse ((1, 10), (2, 20)))) ∧
    remove_entanglement_pair ([] : EPCache) ((1, 10), (2, 20)) =
      Except.error "entanglement pair does not exist" := by
  constructor
  · exact (c4_remove_entanglement_pair_spec
      [((2, 20), (1, 10)), ((3, 30), (4, 40))] ((1, 10), (2, 20))
      (by decide)).2.1 (by decide) (by decide)
  · exact (c4_remove_entanglement_pair_spec [] ((1, 10), (2, 20))
      (by decide)).2.2 (by decide) (by decide)

/-- C10: the cache interface is orientation-asymmetric. Any pair that
`match_generated_entanglement_pair` returns for the query (A, B) is
stored with A as the node of its first component and B as the node of
its second component, so a pair stored only in the reversed orientation
is never returned for (A, B) when A and B differ; and
`add_generated_entanglement_pair` deduplicates only against the exact
stored orientation: a pair whose reverse is already stored is still
inserted. -/
theorem c10_cache_orientation_spec :
    (∀ (strat : String) (fid : EntPair → ℚ) (cache : EPCache) (A B : Name)
      (ep : EntPair),
      match_generated_entanglement_pair strat fid cache A B =
        Except.ok (some ep) →
      ep ∈ cache ∧ ep.1.1 = A ∧ ep.2.1 = B) ∧
    (∀ (strat : String) (fid : EntPair → ℚ) (cache : EPCache) (A B : Name)
      (ep : EntPair),
      A ≠ B → (∀ q ∈ cache, q.1.1 = B ∧ q.2.1 = A) →
      match_generated_entanglement_pair strat fid cache A B ≠
        Except.ok (some ep)) ∧
    (∀ (cache : EPCache) (p : EntPair),
      (p ∈ cache → add_generated_entanglement_pair cache p = cache) ∧
      (p ∉ cache → add_generated_entanglement_pair cache p = p :: cache)) := by
  have hmain : ∀ (strat : String) (fid : EntPair → ℚ) (cache : EPCache)
      (A B : Name) (ep : EntPair),
      match_generated_entanglement_pair strat fid cache A B =
        Except.ok (some ep) →
      ep ∈ cache ∧ ep.1.1 = A ∧ ep.2.1 = B := by
    intro strat fid cache A B ep hmatch
    have hcand : ep ∈ matchCandidates cache A B := by
      unfold match_generated_entanglement_pair at hmatch
      by_cases hlen : (matchCandidates cache A B).length = 0
      · simp [hlen] at hmatch
      · by_cases hr : strat = "random"
        · simp only [hlen, if_false, hr, if_true] at hmatch
          have : (matchCandidates cache A B).head? = some ep := by
            simpa using hmatch
          exact List.mem_of_mem_head? this
        · by_cases hf : strat = "freshest"
          · simp only [hlen, if_false, hr, hf, if_true] at hmatch
            have heq : freshestLoop fid (matchCandidates cache A B) none 0 =
                some ep := by simpa using hmatch
            rcases freshestLoop_spec fid (matchCandidates cache A B) none 0 with
              ⟨hnone, _⟩ | ⟨q, hq, heq2, _, _⟩
            · rw [heq] at hnone; exact absurd hnone (by simp)
            · rw [heq] at heq2
              obtain rfl : q = ep := by
                simpa using heq2.symm
              exact hq
          · simp [hlen, hr, hf] at hmatch
    exact (matchCandidates_mem cache A B ep).mp hcand
  refine ⟨hmain, ?_, ?_⟩
  · intro strat fid cache A B ep hAB hrev hmatch
    rcases hmain strat fid cache A B ep hmatch with ⟨hmem, h1, h2⟩
    rcases hrev ep hmem with ⟨hB, _⟩
    exact hAB (h1 ▸ hB ▸ rfl)
  · intro cache p
    constructor
    · intro hp; simp [add_generated_entanglement_pair, hp]
    · intro hp; simp [add_generated_entanglement_pair, hp]

/-- C10 witness: a cache holding only the reversed orientation yields
no match for (1, 2), and adding the forward orientation to that cache
inserts it despite the stored reverse. -/
theorem c10_cache_orientation_spec_witness :
    (match_generated_entanglement_pair "freshest" (fun _ => 1)
      [((2, 20), (1, 10))] 1 2 ≠ Except.ok (some ((2, 20), (1, 10)))) ∧
    add_generated_entanglement_pair [((2, 20), (1, 10))] ((1, 10), (2, 20)) =
      ((1, 10), (2, 20)) :: [((2, 20), (1, 10))] := by
  constructor
  · exact c10_cache_orientation_spec.2.1 "freshest" (fun _ => 1)
      [((2, 20), (1, 10))] 1 2 ((2, 20), (1, 10)) (by decide) (by decide)
  · exact (c10_cache_orientation_spec.2.2 [((2, 20), (1, 10))]
      ((1, 10), (2, 20))).2 (by decide)

theorem accumulate_length (l : List ℚ) : ∀ s, (accumulate s l).length = l.length := by
  induction l with
  | nil => intro s; rfl
  | cons p ps ih => intro s; simp [accumulate, ih]

theorem accumulate_getD (l : List ℚ) :
    ∀ (s : ℚ) (i : Nat), i < l.length →
      (accumulate s l).getD i 0 = s + (l.take (i + 1)).sum := by
  induction l with
  | nil => intro s i hi; simp at hi
  | cons p ps ih =>
      intro s i hi
      cases i with
      | zero => simp [accumulate]
      | succ n =>
          have hn : n < ps.length := by simpa using hi
          simp only [accumulate, List.getD_cons_succ, List.take_succ_cons,
            List.sum_cons]
          rw [ih (s + p) n hn]
          ring

theorem accumulate_mono (l : List ℚ) (hnn : ∀ p ∈ l, 0 ≤ p) (s : ℚ)
    (i j : Nat) (hij : i ≤ j) (hj : j < l.length) :
    (accumulate s l).getD i 0 ≤ (accumulate s l).getD j 0 := by
  have hi : i < l.length := lt_of_le_of_lt hij hj
  rw [accumulate_getD l s i hi, accumulate_getD l s j hj]
  have hsplit : l.take (j + 1) = l.take (i + 1) ++ (l.drop (i + 1)).take (j - i) := by
    have : i + 1 + (j - i) = j + 1 := by omega
    rw [← this, List.take_add]
  have hnn2 : 0 ≤ ((l.drop (i + 1)).take (j - i)).sum := by
    apply List.sum_nonneg
    intro x hx
    exact hnn x (List.drop_subset _ _ (List.take_subset _ _ hx))
  rw [hsplit, List.sum_append]
  linarith

theorem accumulate_last (l : List ℚ) (hne : l ≠ []) (s : ℚ) :
    (accumulate s l).getD (l.length - 1) 0 = s + l.sum := by
  have hlen : 0 < l.length := List.length_pos.mpr hne
  have h := accumulate_getD l s (l.length - 1) (by omega)
  rw [h]
  congr 1
  have : l.length - 1 + 1 = l.length := by omega
  rw [this, List.take_length]

theorem bisectLeftAux_spec (a : List ℚ) (x : ℚ)
    (mono : ∀ i j, i ≤ j → j < a.length → a.getD i 0 ≤ a.getD j 0) :
    ∀ (fuel lo hi : Nat), hi ≤ a.length → lo ≤ hi → hi - lo ≤ fuel →
      (∀ i, i < lo → a.getD i 0 < x) →
      (∀ i, hi ≤ i → i < a.length → x ≤ a.getD i 0) →
      lo ≤ bisectLeftAux a x fuel lo hi ∧
      bisectLeftAux a x fuel lo hi ≤ hi ∧
      (∀ i, i < bisectLeftAux a x fuel lo hi → a.getD i 0 < x) ∧
      (∀ i, bisectLeftAux a x fuel lo hi ≤ i → i < a.length → x ≤ a.getD i 0) := by
  intro fuel
  induction fuel with
  | zero =>
      intro lo hi hhi hlohi hfuel hlow hhigh
      have : lo = hi := by omega
      subst this
      exact ⟨le_refl _, le_refl _, hlow, hhigh⟩
  | succ fuel ih =>
      intro lo hi hhi hlohi hfuel hlow hhigh
      by_cases hlt : lo < hi
      · simp only [bisectLeftAux, hlt, if_true]
        set mid := (lo + hi) / 2 with hmid
        have hmid1 : lo ≤ mid := by omega
        have hmid2 : mid < hi := by omega
        by_cases hcmp : a.getD mid 0 < x
        · simp only [hcmp, if_true]
          have hlow2 : ∀ i, i < mid + 1 → a.getD i 0 < x := by
            intro i hi2
            exact lt_of_le_of_lt (mono i mid (by omega) (by omega)) hcmp
          have h := ih (mid + 1) hi hhi (by omega) (by omega) hlow2 hhigh
          exact ⟨by omega, h.2.1, h.2.2.1, h.2.2.2⟩
        · simp only [hcmp, if_false]
          push_neg at hcmp
          have hhigh2 : ∀ i, mid ≤ i → i < a.length → x ≤ a.getD i 0 := by
            intro i hi1 hi2
            exact le_trans hcmp (mono mid i hi1 hi2)
          have h := ih lo mid (by omega) (by omega) (by omega) hlow hhigh2
          exact ⟨h.1, by omega, h.2.2.1, h.2.2.2⟩
      · simp only [bisectLeftAux, hlt, if_false]
        have : lo = hi := by omega
        subst this
        exact ⟨le_refl _, le_refl _, hlow, hhigh⟩

/-- C6 (amended): on a nonempty probability table with nonnegative
weights whose sum is at least the drawn sample, `select_neighbor`
returns the name of the first entry, in Python sorted order, whose
cumulative weight is greater than or equal to the sample, and that
entry is an entry of the table. (The claim as frozen omits the
nonemptiness and nonnegativity conditions; see the counterexample.) -/
theorem c6_select_neighbor_amended (table : List (Name × ℚ)) (sample : ℚ)
    (hne : table ≠ []) (hnn : ∀ p ∈ table, 0 ≤ p.2)
    (hsum : sample ≤ (table.map Prod.snd).sum) :
    ∃ i : Nat, i < (pySorted itemLe table).length ∧
      select_neighbor table sample =
        some ((pySorted itemLe table).getD i (emptyName, 0)).1 ∧
      (pySorted itemLe table).getD i (emptyName, 0) ∈ table ∧
      sample ≤
        (accumulate 0 ((pySorted itemLe table).map Prod.snd)).getD i 0 ∧
      ∀ j, j < i →
        (accumulate 0 ((pySorted itemLe table).map Prod.snd)).getD j 0 <
          sample := by
  set s := pySorted itemLe table with hs
  set probs := s.map Prod.snd with hprobs
  set acc := accumulate 0 probs with hacc
  have hperm : List.Perm s table := pySorted_perm itemLe table
  have hlens : s.length = table.length := hperm.length_eq
  have hlenp : probs.length = s.length := by simp [hprobs]
  have hlena : acc.length = probs.length := accumulate_length probs 0
  have hnnp : ∀ p ∈ probs, 0 ≤ p := by
    intro p hp
    rcases List.mem_map.mp hp with ⟨q, hq, rfl⟩
    exact hnn q (hperm.mem_iff.mp hq)
  have hmono : ∀ i j, i ≤ j → j < acc.length → acc.getD i 0 ≤ acc.getD j 0 := by
    intro i j hij hj
    exact accumulate_mono probs hnnp 0 i j hij (by omega)
  have hspec := bisectLeftAux_spec acc sample hmono acc.length 0 acc.length
    (le_refl _) (by omega) (by omega) (by omega) (by omega)
  set r := bisectLeftAux acc sample acc.length 0 acc.length with hr
  have hrsel : select_neighbor table sample = (s.map Prod.fst).get? r := by
    simp only [select_neighbor, bisect_left]
  have hlenpos : 0 < table.length := List.length_pos.mpr hne
  have hprobsne : probs ≠ [] := by
    intro h
    rw [h] at hlenp
    simp at hlenp
    omega
  have hlast : acc.getD (probs.length - 1) 0 = probs.sum := by
    have := accumulate_last probs hprobsne 0
    rw [hacc, this]
    ring
  have hsum2 : sample ≤ acc.getD (probs.length - 1) 0 := by
    rw [hlast]
    have : probs.sum = (table.map Prod.snd).sum := ((hperm.map Prod.snd).sum_eq)
    rw [this]
    exact hsum
  have hrlt : r < acc.length := by
    by_contra hge
    push_neg at hge
    have hlt : probs.length - 1 < r := by omega
    exact absurd hsum2 (not_le.mpr (hspec.2.2.1 _ hlt))
  have hrs : r < s.length := by omega
  refine ⟨r, hrs, ?_, ?_, ?_, ?_⟩
  · rw [hrsel]
    rw [List.get?_eq_getElem?, List.getElem?_eq_getElem (by simpa using hrs)]
    congr 1
    rw [List.getElem_map, List.getD_eq_getElem s (emptyName, 0) hrs]
  · rw [List.getD_eq_getElem s (emptyName, 0) hrs]
    exact hperm.mem_iff.mp (List.getElem_mem hrs)
  · exact hspec.2.2.2 r (le_refl r) hrlt
  · exact fun j hj => hspec.2.2.1 j hj

/-- C6 counterexample to the claim as frozen. First conjunct: the empty
probability table has weight sum 0, at least the (achievable) sample 0,
yet `select_neighbor` returns no entry (the Python code raises
IndexError). Remaining conjuncts: on the table with entries 1 ↦ 2,
2 ↦ -2, 3 ↦ 1 (already in sorted order, weight sum 1 ≥ sample 1) the
code returns entry 3, although the first entry in sorted order whose
cumulative weight (2) reaches the sample is entry 1: `bisect_left` is a
binary search, which only scans correctly when the cumulative-weight
list is monotone, i.e. when weights are nonnegative. -/
theorem c6_select_neighbor_counterexample :
    (select_neighbor [] 0 = none ∧
      (List.map Prod.snd ([] : List (Name × ℚ))).sum = 0) ∧
    (select_neighbor [(1, 2), (2, -2), (3, 1)] 1 = some 3 ∧
      (List.map Prod.snd [(1, (2 : ℚ)), (2, -2), (3, 1)]).sum = 1 ∧
      pySorted itemLe [(1, (2 : ℚ)), (2, -2), (3, 1)] = [(1, 2), (2, -2), (3, 1)] ∧
      1 ≤ (accumulate 0 [2, -2, 1] : List ℚ).getD 0 0 ∧
      ((pySorted itemLe [(1, (2 : ℚ)), (2, -2), (3, 1)]).map Prod.fst).getD 0 emptyName = 1) := by
  refine ⟨⟨rfl, rfl⟩, ?_, by norm_num, ?_, ?_, ?_⟩
  · show ((pySorted itemLe [(1, (2 : ℚ)), (2, -2), (3, 1)]).map Prod.fst).get?
      (bisect_left (accumulate 0 ((pySorted itemLe [(1, (2 : ℚ)), (2, -2), (3, 1)]).map Prod.snd)) 1) = some 3
    norm_num [pySorted, sortInsert, itemLe, accumulate, bisect_left, bisectLeftAux]
  · norm_num [pySorted, sortInsert, itemLe]
  · norm_num [accumulate]
  · norm_num [pySorted, sortInsert, itemLe]

/-- C6 witness for the amended theorem, at the two-entry table
1 ↦ 1/2, 0 ↦ 1/2 (entry 0 is the idle entry) and sample 1/2. -/
theorem c6_select_neighbor_amended_witness :
    ∃ i : Nat, i < (pySorted itemLe [(1, (1 / 2 : ℚ)), (0, 1 / 2)]).length ∧
      select_neighbor [(1, (1 / 2 : ℚ)), (0, 1 / 2)] (1 / 2) =
        some ((pySorted itemLe [(1, (1 / 2 : ℚ)), (0, 1 / 2)]).getD i (emptyName, 0)).1 ∧
      (pySorted itemLe [(1, (1 / 2 : ℚ)), (0, 1 / 2)]).getD i (emptyName, 0) ∈
        [(1, (1 / 2 : ℚ)), (0, 1 / 2)] ∧
      1 / 2 ≤
        (accumulate 0 ((pySorted itemLe [(1, (1 / 2 : ℚ)), (0, 1 / 2)]).map Prod.snd)).getD i 0 ∧
      ∀ j, j < i →
        (accumulate 0 ((pySorted itemLe [(1, (1 / 2 : ℚ)), (0, 1 / 2)]).map Prod.snd)).getD j 0 <
          1 / 2 :=
  c6_select_neighbor_amended [(1, 1 / 2), (0, 1 / 2)] (1 / 2) (by decide)
    (by intro p hp; fin_cases hp <;> norm_num) (by norm_num)

theorem sum_snd_map_le (l : List (Name × ℚ)) (f : Name × ℚ → Name × ℚ)
    (h : ∀ kv ∈ l, kv.2 ≤ (f kv).2) :
    (l.map Prod.snd).sum ≤ ((l.map f).map Prod.snd).sum := by
  induction l with
  | nil => simp
  | cons kv l ih =>
      simp only [List.map_cons, List.sum_cons]
      have h1 := h kv (by simp)
      have h2 := ih (fun q hq => h q (List.mem_cons_of_mem _ hq))
      linarith

theorem sum_snd_map_div (l : List (Name × ℚ)) (c : ℚ) :
    ((l.map (fun kv => (kv.1, kv.2 / c))).map Prod.snd).sum =
      (l.map Prod.snd).sum / c := by
  induction l with
  | nil => simp
  | cons kv l ih =>
      simp only [List.map_cons, List.sum_cons, ih]
      rw [add_div]

/-- C5: after every execution of the adaptation step (the skipped first
invocation and the update_prob == False case included), the
probability-table weights sum to exactly 1 (the floating tolerance of
the claim is exact equality over the rationals), provided they summed
to 1 before; the idle-entry hypothesis reflects the initialisation
invariant that tables built with has_empty_neighbor contain the idle
entry (without it the Python code would raise KeyError on the idle
bump rather than complete the step). -/
theorem c5_update_probability_table_sum (count : Nat)
    (updateProb hasEmpty : Bool) (thisNode : Name)
    (cache : List (Int × List Name)) (now elapse : Int)
    (table : List (Name × ℚ))
    (hsum : (table.map Prod.snd).sum = 1)
    (_hempty : hasEmpty = true → emptyName ∈ table.map Prod.fst) :
    (((update_probability_table count updateProb hasEmpty thisNode cache now
        elapse table).1).map Prod.snd).sum = 1 := by
  unfold update_probability_table
  by_cases hc : count = 0
  · simpa [hc] using hsum
  · by_cases hu : updateProb = false
    · simpa [hc, hu] using hsum
    · simp only [hc, hu, if_false]
      set ns := neighborInPath (pathsWithin cache now elapse) thisNode with hns
      set f1 : Name × ℚ → Name × ℚ :=
        fun kv => if kv.1 ≠ emptyName ∧ kv.1 ∈ ns then (kv.1, kv.2 + 1 / 20) else kv with hf1
      set f2 : Name × ℚ → Name × ℚ :=
        fun kv => if kv.1 = emptyName then (kv.1, kv.2 + 1 / 20) else kv with hf2
      have hstep1 : (table.map Prod.snd).sum ≤ ((table.map f1).map Prod.snd).sum := by
        apply sum_snd_map_le
        intro kv _
        by_cases h : kv.1 ≠ emptyName ∧ kv.1 ∈ ns
        · rw [hf1]
          simp only [if_pos h]
          norm_num
        · rw [hf1]
          simp only [if_neg h]
          exact le_refl _
      have hstep2 : ((table.map f1).map Prod.snd).sum ≤
          (((table.map f1).map f2).map Prod.snd).sum := by
        apply sum_snd_map_le
        intro kv _
        by_cases h : kv.1 = emptyName
        · rw [hf2]
          simp only [if_pos h]
          norm_num
        · rw [hf2]
          simp only [if_neg h]
          exact le_refl _
      set bumped2 :=
        if (table.any fun kv => kv.1 ≠ emptyName && ns.contains kv.1) = false ∧
            hasEmpty = true then
          (table.map f1).map f2
        else table.map f1 with hb2
      have hge : 1 ≤ (bumped2.map Prod.snd).sum := by
        rw [hb2]
        by_cases h : (table.any fun kv => kv.1 ≠ emptyName && ns.contains kv.1) = false ∧
            hasEmpty = true
        · simp only [h, if_true]
          calc (1 : ℚ) = (table.map Prod.snd).sum := hsum.symm
            _ ≤ ((table.map f1).map Prod.snd).sum := hstep1
            _ ≤ (((table.map f1).map f2).map Prod.snd).sum := hstep2
        · simp only [h, if_false]
          calc (1 : ℚ) = (table.map Prod.snd).sum := hsum.symm
            _ ≤ ((table.map f1).map Prod.snd).sum := hstep1
      have hpos : (bumped2.map Prod.snd).sum ≠ 0 := by linarith
      have hfinal : ((bumped2.map
          (fun kv => (kv.1, kv.2 / (bumped2.map Prod.snd).sum))).map Prod.snd).sum = 1 := by
        rw [sum_snd_map_div]
        exact div_self hpos
      simpa using hfinal

/-- C5 witness: a three-entry table (idle entry 0 and neighbors 2, 3)
summing to 1, with one recent cached path [2, 1, 3] through this
node 1, after the second invocation of the adaptation step. -/
theorem c5_update_probability_table_sum_witness :
    (((update_probability_table 1 true true 1 [(5, [2, 1, 3])] 5 10
        [(0, (1 / 2 : ℚ)), (2, 1 / 4), (3, 1 / 4)]).1).map Prod.snd).sum = 1 :=
  c5_update_probability_table_sum 1 true true 1 [(5, [2, 1, 3])] 5 10
    [(0, 1 / 2), (2, 1 / 4), (3, 1 / 4)] (by norm_num) (by decide)

/-- C7: a heralding report is accepted exactly when its timestamp is
within resolution/2 (exact rational division) of the expected
detection time, for all integer arguments; and a MEAS_RES message
failing the test leaves the recorded bsm_res of the protocol unchanged,
in both the single-atom and the single-heralded variant. -/
theorem c7_valid_trigger_time_spec :
    (∀ t target r : Int,
      valid_trigger_time t target r = true ↔
        ((|t - target| : ℤ) : ℚ) ≤ (r : ℚ) / 2) ∧
    (∀ (s : EGAState) (d t r : Int),
      valid_trigger_time t s.expectedTime r = false →
      ega_received_meas_res s d t r = some s) ∧
    (∀ (s : ShState) (d t r : Int),
      valid_trigger_time t s.expectedTime r = false →
      sh_received_meas_res s d t r = some s) := by
  refine ⟨?_, ?_, ?_⟩
  · intro t target r
    have h1 : valid_trigger_time t target r = true ↔
        target - r.fdiv 2 ≤ t ∧ t ≤ target + r.fdiv 2 := by
      simp [valid_trigger_time]
    have h2 : (target - r.fdiv 2 ≤ t ∧ t ≤ target + r.fdiv 2) ↔
        2 * |t - target| ≤ r := by
      rw [Int.fdiv_eq_ediv _ (by norm_num)]
      rcases abs_cases (t - target) with ⟨he, _⟩ | ⟨he, _⟩ <;> omega
    have h3 : ((|t - target| : ℤ) : ℚ) ≤ (r : ℚ) / 2 ↔
        2 * |t - target| ≤ r := by
      rw [le_div_iff₀ (by norm_num : (0 : ℚ) < 2)]
      rw [show ((|t - target| : ℤ) : ℚ) * 2 = ((|t - target| * 2 : ℤ) : ℚ) by push_cast; ring]
      rw [Int.cast_le, mul_comm (2 : ℤ) (|t - target|)]
    exact h1.trans (h2.trans h3.symm)
  · intro s d t r h
    simp [ega_received_meas_res, h]
  · intro s d t r h
    simp [sh_received_meas_res, h]

/-- C7 witness: the boundary acceptance |102 - 100| ≤ 5/2 fails at
trigger time 103, and an invalid report at time 103 leaves both
variant states unchanged. -/
theorem c7_valid_trigger_time_spec_witness :
    (valid_trigger_time 102 100 5 = true ↔
      ((|102 - 100| : ℤ) : ℚ) ≤ (5 : ℚ) / 2) ∧
    ega_received_meas_res (egaInit false 100) 0 103 5 =
      some (egaInit false 100) ∧
    sh_received_meas_res { shState0 with expectedTime := 100 } 0 103 5 =
      some { shState0 with expectedTime := 100 } :=
  ⟨c7_valid_trigger_time_spec.1 102 100 5,
    c7_valid_trigger_time_spec.2.1 (egaInit false 100) 0 103 5 (by decide),
    c7_valid_trigger_time_spec.2.2 { shState0 with expectedTime := 100 } 0 103 5
      (by decide)⟩

theorem updName_self (f : Name → α) (k : Name) (v : α) : updName f k v k = v := by
  simp [updName]

theorem updName_ne (f : Name → α) (k : Name) (v : α) (n : Name) (h : n ≠ k) :
    updName f k v n = f n := by
  simp [updName, h]

/-- C2: when at swap time the donor memory is no longer entangled or
the protocol instance is no longer installed, `swap_two_memory` (both
variants) performs no attribute exchange between the two slots, reverts
the occupied memory of the protocol to RAW through the resource manager and
returns (in particular the memory attributes of every slot, and every
info except that of the occupied slot, are unchanged); and when both checks
pass, the single-atom variant leaves the two slots fully exchanged
(donor info RAW, remote memory recorded), never partially swapped. -/
theorem c2_swap_two_memory_spec :
    (∀ (ctx : AtomSwapCtx) (occName entName : Name),
      check_entangled_memory ctx.nodeMem entName = false ∨
        ctx.installed = false →
      atom_swap_two_memory ctx occName entName = atom_swap_abort ctx ∧
      (atom_swap_abort ctx).nodeMem.mems = ctx.nodeMem.mems ∧
      (atom_swap_abort ctx).nodeMem.infos = updName ctx.nodeMem.infos ctx.selfMemName (infoToRaw (ctx.nodeMem.infos ctx.selfMemName))) ∧
    (∀ (dec : MemAttrs → MemAttrs) (gb : MemAttrs → ℚ) (rf : Bool)
      (s : ShState) (occName entName : Name),
      check_entangled_memory s.nodeMem entName = false ∨
        s.installed = false →
      sh_swap_two_memory dec gb rf s occName entName =
        (sh_rm_update s s.memName MemState.raw, []) ∧
      (sh_rm_update s s.memName MemState.raw).nodeMem.mems =
        s.nodeMem.mems ∧
      (sh_rm_update s s.memName MemState.raw).nodeMem.infos =
        updName s.nodeMem.infos s.memName (infoToRaw (s.nodeMem.infos s.memName))) ∧
    (∀ (ctx : AtomSwapCtx) (occName entName : Name),
      check_entangled_memory ctx.nodeMem entName = true →
      ctx.installed = true → occName ≠ entName →
      (atom_swap_two_memory ctx occName entName).nodeMem.mems entName =
        { ctx.nodeMem.mems occName with decoherenceErrors := (ctx.nodeMem.mems entName).decoherenceErrors, cutoffRatio := (ctx.nodeMem.mems entName).cutoffRatio, generationTime := (ctx.nodeMem.mems entName).generationTime, lastUpdateTime := (ctx.nodeMem.mems entName).lastUpdateTime, isInApplication := (ctx.nodeMem.mems entName).isInApplication } ∧
      (atom_swap_two_memory ctx occName entName).nodeMem.mems occName =
        { ctx.nodeMem.mems entName with decoherenceErrors := (ctx.nodeMem.mems occName).decoherenceErrors, cutoffRatio := (ctx.nodeMem.mems occName).cutoffRatio, generationTime := (ctx.nodeMem.mems occName).generationTime, lastUpdateTime := (ctx.nodeMem.mems occName).lastUpdateTime, isInApplication := (ctx.nodeMem.mems occName).isInApplication, entangledMemory := { (ctx.nodeMem.mems entName).entangledMemory with memoId := some ctx.remoteMemoryName } } ∧
      (atom_swap_two_memory ctx occName entName).nodeMem.infos entName =
        infoToRaw (ctx.nodeMem.infos occName) ∧
      (atom_swap_two_memory ctx occName entName).nodeMem.infos occName =
        { ctx.nodeMem.infos entName with remoteMemo := some ctx.remoteMemoryName }) := by
  refine ⟨?_, ?_, ?_⟩
  · intro ctx occName entName h
    rcases h with h | h
    · exact ⟨by simp [atom_swap_two_memory, h], rfl, rfl⟩
    · by_cases hc : check_entangled_memory ctx.nodeMem entName = false
      · exact ⟨by simp [atom_swap_two_memory, hc], rfl, rfl⟩
      · exact ⟨by simp [atom_swap_two_memory, hc, h], rfl, rfl⟩
  · intro dec gb rf s occName entName h
    rcases h with h | h
    · exact ⟨by simp [sh_swap_two_memory, h], rfl, rfl⟩
    · by_cases hc : check_entangled_memory s.nodeMem entName = false
      · exact ⟨by simp [sh_swap_two_memory, hc], rfl, rfl⟩
      · exact ⟨by simp [sh_swap_two_memory, hc, h], rfl, rfl⟩
  · intro ctx occName entName hcheck hinst hne
    have hcf : ¬check_entangled_memory ctx.nodeMem entName = false := by
      simp [hcheck]
    have hif : ¬ctx.installed = false := by simp [hinst]
    refine ⟨?_, ?_, ?_, ?_⟩ <;>
      simp [atom_swap_two_memory, hcf, hif, mm_swap_two_memory, updName_self,
        updName_ne _ _ _ _ hne, updName_ne _ _ _ _ (Ne.symm hne)]

/-- C2 witness: swapping against a donor slot that is no longer
entangled aborts to RAW in the single-atom variant, and a retracted
single-heralded instance aborts likewise. -/
theorem c2_swap_two_memory_spec_witness :
    (atom_swap_two_memory atomCtx0 10 11 = atom_swap_abort atomCtx0 ∧
      (atom_swap_abort atomCtx0).nodeMem.mems = atomCtx0.nodeMem.mems ∧
      (atom_swap_abort atomCtx0).nodeMem.infos = updName atomCtx0.nodeMem.infos atomCtx0.selfMemName (infoToRaw (atomCtx0.nodeMem.infos atomCtx0.selfMemName))) ∧
    (sh_swap_two_memory id (fun m => m.fidelity) true shState0 10 11 =
        (sh_rm_update shState0 shState0.memName MemState.raw, []) ∧
      (sh_rm_update shState0 shState0.memName MemState.raw).nodeMem.mems =
        shState0.nodeMem.mems ∧
      (sh_rm_update shState0 shState0.memName MemState.raw).nodeMem.infos =
        updName shState0.nodeMem.infos shState0.memName (infoToRaw (shState0.nodeMem.infos shState0.memName))) :=
  ⟨c2_swap_two_memory_spec.1 atomCtx0 10 11 (Or.inl (by decide)),
    c2_swap_two_memory_spec.2.1 id (fun m => m.fidelity) true shState0 10 11
      (Or.inr (by decide))⟩

/-- C9: every event-fired entry point of the single-heralded
generation protocol (start, update_memory, emit_event) first verifies
that the instance is still installed in owner.protocols, and when it
is not it returns with the state unchanged and no external effect (no
message sent, nothing scheduled, no memory mutated). -/
theorem c9_sh_entry_points_guard (s : ShState) (h : s.installed = false) :
    (∀ (qcd ccd now : Int) (dec : MemAttrs → MemAttrs) (gb : MemAttrs → ℚ)
      (rf : Bool) (fid : EntPair → ℚ),
      sh_start qcd ccd now dec gb rf fid s = Except.ok (s, [])) ∧
    (∀ (dec : MemAttrs → MemAttrs) (gb : MemAttrs → ℚ),
      sh_update_memory dec gb s = (s, none, [])) ∧
    sh_emit_event s = (s, []) := by
  refine ⟨?_, ?_, ?_⟩
  · intro qcd ccd now dec gb rf fid
    simp [sh_start, h]
  · intro dec gb
    simp [sh_update_memory, h]
  · simp [sh_emit_event, h]

/-- C9 witness: a retracted instance (shState0) acts on none of its
three entry points. -/
theorem c9_sh_entry_points_guard_witness :
    (∀ (qcd ccd now : Int) (dec : MemAttrs → MemAttrs) (gb : MemAttrs → ℚ)
      (rf : Bool) (fid : EntPair → ℚ),
      sh_start qcd ccd now dec gb rf fid shState0 = Except.ok (shState0, [])) ∧
    (∀ (dec : MemAttrs → MemAttrs) (gb : MemAttrs → ℚ),
      sh_update_memory dec gb shState0 = (shState0, none, [])) ∧
    sh_emit_event shState0 = (shState0, []) :=
  c9_sh_entry_points_guard shState0 (by decide)

theorem ega_mr_run_round1 (mrs : List EGEvent) :
    ∀ (s : EGAState), s.entRound = 1 → (∀ e ∈ mrs, isMeasResNonNeg e) →
      ega_run s mrs = { s with bsmRes0 := (ega_run s mrs).bsmRes0 } ∧
      ((ega_run s mrs).bsmRes0 = -1 ↔
        ((s.bsmRes0 = -1) ↔ Even (countValid s.expectedTime mrs))) := by
  induction mrs with
  | nil =>
      intro s h1 hall
      refine ⟨rfl, ?_⟩
      simp [ega_run, countValid]
  | cons e es ih =>
      intro s h1 hall
      cases e with
      | updateMemory =>
          exact absurd (hall _ (List.mem_cons_self _ _)) (by simp [isMeasResNonNeg])
      | measRes d t r =>
          have hd : (0 : ℤ) ≤ d := hall _ (List.mem_cons_self _ _)
          have hall2 : ∀ e ∈ es, isMeasResNonNeg e :=
            fun e he => hall e (List.mem_cons_of_mem _ he)
          by_cases hv : valid_trigger_time t s.expectedTime r = true
          · by_cases hb : s.bsmRes0 = -1
            · have hstep : ega_step s (EGEvent.measRes d t r) = { s with bsmRes0 := d } := by
                simp [ega_step, ega_received_meas_res, hv, h1, bsmResGet, bsmResSet, hb]
              have hrun : ega_run s (EGEvent.measRes d t r :: es) =
                  ega_run { s with bsmRes0 := d } es := by
                simp [ega_run, hstep]
              obtain ⟨hframe, hiff⟩ :=
                ih { s with bsmRes0 := d } (by simp [h1]) hall2
              have hdne : ¬(d = -1) := by omega
              constructor
              · rw [hrun]; exact hframe
              · rw [hrun]
                rw [hiff]
                simp only [countValid, hv, if_true]
                simp [hb, hdne, Nat.add_comm 1 (countValid s.expectedTime es),
                  Nat.even_add_one]
            · have hstep : ega_step s (EGEvent.measRes d t r) = { s with bsmRes0 := -1 } := by
                simp [ega_step, ega_received_meas_res, hv, h1, bsmResGet, bsmResSet, hb]
              have hrun : ega_run s (EGEvent.measRes d t r :: es) =
                  ega_run { s with bsmRes0 := -1 } es := by
                simp [ega_run, hstep]
              obtain ⟨hframe, hiff⟩ :=
                ih { s with bsmRes0 := -1 } (by simp [h1]) hall2
              constructor
              · rw [hrun]; exact hframe
              · rw [hrun]
                rw [hiff]
                simp only [countValid, hv, if_true]
                simp [hb, Nat.add_comm 1 (countValid s.expectedTime es),
                  Nat.even_add_one]
          · have hstep : ega_step s (EGEvent.measRes d t r) = s := by
              simp [ega_step, ega_received_meas_res, hv]
            have hrun : ega_run s (EGEvent.measRes d t r :: es) = ega_run s es := by
              simp [ega_run, hstep]
            obtain ⟨hframe, hiff⟩ := ih s h1 hall2
            constructor
            · rw [hrun]; exact hframe
            · rw [hrun, hiff]
              simp [countValid, hv]

theorem ega_mr_run_round2 (mrs : List EGEvent) :
    ∀ (s : EGAState), s.entRound = 2 → (∀ e ∈ mrs, isMeasResNonNeg e) →
      ega_run s mrs = { s with bsmRes1 := (ega_run s mrs).bsmRes1 } ∧
      ((ega_run s mrs).bsmRes1 = -1 ↔
        ((s.bsmRes1 = -1) ↔ Even (countValid s.expectedTime mrs))) := by
  induction mrs with
  | nil =>
      intro s h1 hall
      refine ⟨rfl, ?_⟩
      simp [ega_run, countValid]
  | cons e es ih =>
      intro s h1 hall
      cases e with
      | updateMemory =>
          exact absurd (hall _ (List.mem_cons_self _ _)) (by simp [isMeasResNonNeg])
      | measRes d t r =>
          have hd : (0 : ℤ) ≤ d := hall _ (List.mem_cons_self _ _)
          have hall2 : ∀ e ∈ es, isMeasResNonNeg e :=
            fun e he => hall e (List.mem_cons_of_mem _ he)
          by_cases hv : valid_trigger_time t s.expectedTime r = true
          · by_cases hb : s.bsmRes1 = -1
            · have hstep : ega_step s (EGEvent.measRes d t r) = { s with bsmRes1 := d } := by
                simp [ega_step, ega_received_meas_res, hv, h1, bsmResGet, bsmResSet, hb]
              have hrun : ega_run s (EGEvent.measRes d t r :: es) =
                  ega_run { s with bsmRes1 := d } es := by
                simp [ega_run, hstep]
              obtain ⟨hframe, hiff⟩ :=
                ih { s with bsmRes1 := d } (by simp [h1]) hall2
              have hdne : ¬(d = -1) := by omega
              constructor
              · rw [hrun]; exact hframe
              · rw [hrun]
                rw [hiff]
                simp only [countValid, hv, if_true]
                simp [hb, hdne, Nat.add_comm 1 (countValid s.expectedTime es),
                  Nat.even_add_one]
            · have hstep : ega_step s (EGEvent.measRes d t r) = { s with bsmRes1 := -1 } := by
                simp [ega_step, ega_received_meas_res, hv, h1, bsmResGet, bsmResSet, hb]
              have hrun : ega_run s (EGEvent.measRes d t r :: es) =
                  ega_run { s with bsmRes1 := -1 } es := by
                simp [ega_run, hstep]
              obtain ⟨hframe, hiff⟩ :=
                ih { s with bsmRes1 := -1 } (by simp [h1]) hall2
              constructor
              · rw [hrun]; exact hframe
              · rw [hrun]
                rw [hiff]
                simp only [countValid, hv, if_true]
                simp [hb, Nat.add_comm 1 (countValid s.expectedTime es),
                  Nat.even_add_one]
          · have hstep : ega_step s (EGEvent.measRes d t r) = s := by
              simp [ega_step, ega_received_meas_res, hv]
            have hrun : ega_run s (EGEvent.measRes d t r :: es) = ega_run s es := by
              simp [ega_run, hstep]
            obtain ⟨hframe, hiff⟩ := ih s h1 hall2
            constructor
            · rw [hrun]; exact hframe
            · rw [hrun, hiff]
              simp [countValid, hv]

theorem ega_run_append (s : EGAState) (l1 l2 : List EGEvent) :
    ega_run s (l1 ++ l2) = ega_run (ega_run s l1) l2 := by
  simp [ega_run, List.foldl_append]

set_option maxRecDepth 8000 in
/-- C8 (amended): in the two-round single-atom variant, the first
`update_memory` round never concludes the protocol; over a full
two-round trace the protocol declares Success exactly when each round
recorded an ODD number of valid detections (one, in the nominal case;
the round result `bsm_res[i]` toggles on every valid report), with NO
requirement that the detector parity match across the two rounds: on
Success the primary applies the bit-flip correction and the
non-primary applies the phase-flip correction exactly when the two
recorded detectors differ; every other outcome pattern leads to Fail
with the memory reverted to RAW. -/
theorem c8_two_round_update_memory (primary : Bool) (e : Int)
    (mrs1 mrs2 : List EGEvent)
    (h1 : ∀ ev ∈ mrs1, isMeasResNonNeg ev)
    (h2 : ∀ ev ∈ mrs2, isMeasResNonNeg ev) :
    (ega_run (egaInit primary e) [EGEvent.updateMemory]).status =
      EGStatus.inProgress ∧
    ((ega_run (egaInit primary e)
        ([EGEvent.updateMemory] ++ mrs1 ++ [EGEvent.updateMemory] ++ mrs2 ++
          [EGEvent.updateMemory])).status = EGStatus.succeeded ↔
      Odd (countValid e mrs1) ∧ Odd (countValid e mrs2)) ∧
    ((ega_run (egaInit primary e)
        ([EGEvent.updateMemory] ++ mrs1 ++ [EGEvent.updateMemory] ++ mrs2 ++
          [EGEvent.updateMemory])).status = EGStatus.succeeded →
      (ega_run (egaInit primary e)
        ([EGEvent.updateMemory] ++ mrs1 ++ [EGEvent.updateMemory] ++ mrs2 ++
          [EGEvent.updateMemory])).memState = MemState.entangled ∧
      (primary = true →
        (ega_run (egaInit primary e)
          ([EGEvent.updateMemory] ++ mrs1 ++ [EGEvent.updateMemory] ++ mrs2 ++
            [EGEvent.updateMemory])).gates = [Gate.flip, Gate.flip]) ∧
      (primary = false →
        ((ega_run (egaInit primary e)
            ([EGEvent.updateMemory] ++ mrs1 ++ [EGEvent.updateMemory] ++ mrs2 ++
              [EGEvent.updateMemory])).bsmRes0 ≠
          (ega_run (egaInit primary e)
            ([EGEvent.updateMemory] ++ mrs1 ++ [EGEvent.updateMemory] ++ mrs2 ++
              [EGEvent.updateMemory])).bsmRes1 →
          (ega_run (egaInit primary e)
            ([EGEvent.updateMemory] ++ mrs1 ++ [EGEvent.updateMemory] ++ mrs2 ++
              [EGEvent.updateMemory])).gates = [Gate.flip, Gate.zgate]) ∧
        ((ega_run (egaInit primary e)
            ([EGEvent.updateMemory] ++ mrs1 ++ [EGEvent.updateMemory] ++ mrs2 ++
              [EGEvent.updateMemory])).bsmRes0 =
          (ega_run (egaInit primary e)
            ([EGEvent.updateMemory] ++ mrs1 ++ [EGEvent.updateMemory] ++ mrs2 ++
              [EGEvent.updateMemory])).bsmRes1 →
          (ega_run (egaInit primary e)
            ([EGEvent.updateMemory] ++ mrs1 ++ [EGEvent.updateMemory] ++ mrs2 ++
              [EGEvent.updateMemory])).gates = [Gate.flip]))) ∧
    ((ega_run (egaInit primary e)
        ([EGEvent.updateMemory] ++ mrs1 ++ [EGEvent.updateMemory] ++ mrs2 ++
          [EGEvent.updateMemory])).status ≠ EGStatus.succeeded →
      (ega_run (egaInit primary e)
        ([EGEvent.updateMemory] ++ mrs1 ++ [EGEvent.updateMemory] ++ mrs2 ++
          [EGEvent.updateMemory])).status = EGStatus.failed ∧
      (ega_run (egaInit primary e)
        ([EGEvent.updateMemory] ++ mrs1 ++ [EGEvent.updateMemory] ++ mrs2 ++
          [EGEvent.updateMemory])).memState = MemState.raw) := by
  have hs1 : ega_run (egaInit primary e) [EGEvent.updateMemory] =
      { entRound := 1, bsmRes0 := -1, bsmRes1 := -1, primary := primary, installed := true, memState := MemState.occupied, gates := [], status := EGStatus.inProgress, expectedTime := e } := by
    simp [ega_run, ega_step, ega_update_memory, egaInit]
  set s1 : EGAState :=
    { entRound := 1, bsmRes0 := -1, bsmRes1 := -1, primary := primary, installed := true, memState := MemState.occupied, gates := [], status := EGStatus.inProgress, expectedTime := e } with hs1def
  obtain ⟨hf1, hi1⟩ := ega_mr_run_round1 mrs1 s1 rfl h1
  set X := (ega_run s1 mrs1).bsmRes0 with hX
  have hXiff : X = -1 ↔ Even (countValid e mrs1) := by
    simpa [hs1def] using hi1
  have hsplit : ega_run (egaInit primary e)
      ([EGEvent.updateMemory] ++ mrs1 ++ [EGEvent.updateMemory] ++ mrs2 ++
        [EGEvent.updateMemory]) =
      ega_run (ega_run (ega_run (ega_run s1 mrs1) [EGEvent.updateMemory]) mrs2)
        [EGEvent.updateMemory] := by
    rw [ega_run_append, ega_run_append, ega_run_append, ega_run_append, hs1]
  rcases Nat.even_or_odd (countValid e mrs1) with hev1 | hod1
  · -- round 1 recorded an even number of valid detections: round 2 fails
    have hXeq : X = -1 := hXiff.mpr hev1
    have hstep2 : ega_run (ega_run s1 mrs1) [EGEvent.updateMemory] =
        { s1 with bsmRes0 := X, entRound := 2, memState := MemState.raw, status := EGStatus.failed, installed := false } := by
      rw [hf1]
      simp [ega_run, ega_step, ega_update_memory, hs1def, hXeq]
    set s3 : EGAState := { s1 with bsmRes0 := X, entRound := 2, memState := MemState.raw, status := EGStatus.failed, installed := false } with hs3def
    obtain ⟨hf2, _⟩ := ega_mr_run_round2 mrs2 s3 rfl h2
    have hstep3 : ega_run (ega_run s3 mrs2) [EGEvent.updateMemory] =
        ega_run s3 mrs2 := by
      rw [hf2]
      simp [ega_run, ega_step, ega_update_memory, hs3def]
    have hfin : ega_run (egaInit primary e)
        ([EGEvent.updateMemory] ++ mrs1 ++ [EGEvent.updateMemory] ++ mrs2 ++
          [EGEvent.updateMemory]) =
        { s3 with bsmRes1 := (ega_run s3 mrs2).bsmRes1 } := by
      rw [hsplit, hstep2, hstep3, hf2]
    rw [hs1, hfin]
    have hnotodd : ¬Odd (countValid e mrs1) := by
      exact Nat.not_odd_iff_even.mpr hev1
    simp [hs3def, hs1def, hnotodd]
  · -- round 1 recorded an odd number: round 2 continues with the flip circuit
    have hXne : ¬(X = -1) := by
      intro h
      exact (Nat.not_odd_iff_even.mpr (hXiff.mp h)) hod1
    have hstep2 : ega_run (ega_run s1 mrs1) [EGEvent.updateMemory] =
        { s1 with bsmRes0 := X, entRound := 2, gates := [Gate.flip] } := by
      rw [hf1]
      simp [ega_run, ega_step, ega_update_memory, hs1def, hXne]
    set s3 : EGAState := { s1 with bsmRes0 := X, entRound := 2, gates := [Gate.flip] } with hs3def
    obtain ⟨hf2, hi2⟩ := ega_mr_run_round2 mrs2 s3 rfl h2
    set Y := (ega_run s3 mrs2).bsmRes1 with hY
    have hYiff : Y = -1 ↔ Even (countValid e mrs2) := by
      simpa [hs3def, hs1def] using hi2
    rcases Nat.even_or_odd (countValid e mrs2) with hev2 | hod2
    · -- round 2 recorded an even number: round 3 fails
      have hYeq : Y = -1 := hYiff.mpr hev2
      have hstep3 : ega_run (ega_run s3 mrs2) [EGEvent.updateMemory] =
          { s3 with bsmRes1 := Y, entRound := 3, memState := MemState.raw, status := EGStatus.failed, installed := false } := by
        rw [hf2]
        simp [ega_run, ega_step, ega_update_memory, hs3def, hs1def, hYeq]
      have hfin : ega_run (egaInit primary e)
          ([EGEvent.updateMemory] ++ mrs1 ++ [EGEvent.updateMemory] ++ mrs2 ++
            [EGEvent.updateMemory]) =
          { s3 with bsmRes1 := Y, entRound := 3, memState := MemState.raw, status := EGStatus.failed, installed := false } := by
        rw [hsplit, hstep2, hstep3]
      rw [hs1, hfin]
      have hnotodd : ¬Odd (countValid e mrs2) := by
        exact Nat.not_odd_iff_even.mpr hev2
      simp [hs3def, hs1def, hnotodd]
    · -- both rounds recorded odd numbers: round 3 succeeds with corrections
      have hYne : ¬(Y = -1) := by
        intro h
        exact (Nat.not_odd_iff_even.mpr (hYiff.mp h)) hod2
      have hstep3 : ega_run (ega_run s3 mrs2) [EGEvent.updateMemory] =
          (if primary then { s3 with bsmRes1 := Y, entRound := 3, gates := [Gate.flip, Gate.flip], memState := MemState.entangled, status := EGStatus.succeeded, installed := false } else if X ≠ Y then { s3 with bsmRes1 := Y, entRound := 3, gates := [Gate.flip, Gate.zgate], memState := MemState.entangled, status := EGStatus.succeeded, installed := false } else { s3 with bsmRes1 := Y, entRound := 3, memState := MemState.entangled, status := EGStatus.succeeded, installed := false }) := by
        rw [hf2]
        by_cases hp : primary
        · simp [ega_run, ega_step, ega_update_memory, hs3def, hs1def, hYne, hp]
        · by_cases hxy : X = Y
          · simp [ega_run, ega_step, ega_update_memory, hs3def, hs1def, hYne, hp, hxy]
          · simp [ega_run, ega_step, ega_update_memory, hs3def, hs1def, hYne, hp, hxy]
      have hfin : ega_run (egaInit primary e)
          ([EGEvent.updateMemory] ++ mrs1 ++ [EGEvent.updateMemory] ++ mrs2 ++
            [EGEvent.updateMemory]) =
          (if primary then { s3 with bsmRes1 := Y, entRound := 3, gates := [Gate.flip, Gate.flip], memState := MemState.entangled, status := EGStatus.succeeded, installed := false } else if X ≠ Y then { s3 with bsmRes1 := Y, entRound := 3, gates := [Gate.flip, Gate.zgate], memState := MemState.entangled, status := EGStatus.succeeded, installed := false } else { s3 with bsmRes1 := Y, entRound := 3, memState := MemState.entangled, status := EGStatus.succeeded, installed := false }) := by
        rw [hsplit, hstep2, hstep3]
      rw [hs1, hfin]
      by_cases hp : primary
      · simp [hs3def, hs1def, hp, hod1, hod2]
      · by_cases hxy : X = Y
        · simp [hs3def, hs1def, hp, hxy, hod1, hod2]
        · simp [hs3def, hs1def, hp, hxy, hod1, hod2]

/-- C8 counterexample to the claim as frozen. First trace: each round
records exactly one valid detection but on DIFFERENT detectors
(0, then 1) — the claim requires matching detector parity for Success,
yet the non-primary run succeeds, applying the phase-flip correction.
Second trace: round 1 records three valid detections (not exactly
one; the round result toggles back to a detector number) and the run
still succeeds. -/
theorem c8_two_round_counterexample :
    ((ega_run (egaInit false 0)
        [EGEvent.updateMemory, EGEvent.measRes 0 0 2, EGEvent.updateMemory,
          EGEvent.measRes 1 0 2, EGEvent.updateMemory]).status =
      EGStatus.succeeded ∧
    (ega_run (egaInit false 0)
        [EGEvent.updateMemory, EGEvent.measRes 0 0 2, EGEvent.updateMemory,
          EGEvent.measRes 1 0 2, EGEvent.updateMemory]).bsmRes0 = 0 ∧
    (ega_run (egaInit false 0)
        [EGEvent.updateMemory, EGEvent.measRes 0 0 2, EGEvent.updateMemory,
          EGEvent.measRes 1 0 2, EGEvent.updateMemory]).bsmRes1 = 1 ∧
    (ega_run (egaInit false 0)
        [EGEvent.updateMemory, EGEvent.measRes 0 0 2, EGEvent.updateMemory,
          EGEvent.measRes 1 0 2, EGEvent.updateMemory]).gates =
      [Gate.flip, Gate.zgate] ∧
    countValid 0 [EGEvent.measRes 0 0 2] = 1 ∧
    countValid 0 [EGEvent.measRes 1 0 2] = 1) ∧
    ((ega_run (egaInit false 0)
        [EGEvent.updateMemory, EGEvent.measRes 0 0 2, EGEvent.measRes 0 0 2,
          EGEvent.measRes 0 0 2, EGEvent.updateMemory, EGEvent.measRes 0 0 2,
          EGEvent.updateMemory]).status = EGStatus.succeeded ∧
    countValid 0 [EGEvent.measRes 0 0 2, EGEvent.measRes 0 0 2,
      EGEvent.measRes 0 0 2] = 3) := by
  decide

/-- C8 witness for the amended theorem: one valid detection per round
on detectors 0 and 1 (odd counts) concludes with Success. -/
theorem c8_two_round_update_memory_witness :
    (ega_run (egaInit false 0)
        ([EGEvent.updateMemory] ++ [EGEvent.measRes 0 0 2] ++
          [EGEvent.updateMemory] ++ [EGEvent.measRes 1 0 2] ++
          [EGEvent.updateMemory])).status = EGStatus.succeeded :=
  ((c8_two_round_update_memory false 0 [EGEvent.measRes 0 0 2]
      [EGEvent.measRes 1 0 2]
      (by intro ev hv; rcases List.mem_singleton.mp hv with rfl; simp [isMeasResNonNeg])
      (by intro ev hv; rcases List.mem_singleton.mp hv with rfl; simp [isMeasResNonNeg])).2.1).mpr
    ⟨by decide, by decide⟩

theorem countP_middle (p : ACMsg → Bool) (l1 l2 : List ACMsg) (msg : ACMsg) :
    (l1 ++ msg :: l2).countP p =
      l1.countP p + l2.countP p + (if p msg then 1 else 0) := by
  simp [List.countP_append, List.countP_cons]
  omega

theorem acStep_preserves {s s2 : ACNet} (hstep : ACStep s s2)
    (hinv : ACInv s) : ACInv s2 := by
  cases hstep with
  | noop => exact hinv
  | startRequest n m h =>
      intro k
      obtain ⟨ha, hb, hc⟩ := hinv k
      simp only [outstanding] at hb
      refine ⟨ha, ?_, ?_⟩
      · simp only [outstanding, List.countP_cons]
        have hio : isOutstanding k (ACMsg.request n m) = (n == k) := rfl
        by_cases hk : k = n
        · subst hk
          simp only [updName_self, hio, beq_self_eq_true, if_true]
          push_cast
          omega
        · have hne : (n == k) = false := by
            simp [Ne.symm hk]
          simp only [updName_ne _ _ _ _ hk, hio, hne, Bool.false_eq_true, if_false]
          push_cast
          omega
      · by_cases hk : k = n
        · subst hk
          simp only [updName_self]
          omega
        · simp only [updName_ne _ _ _ _ hk]
          exact hc
  | recvRequestAccept n m l1 l2 hmsg hq =>
      intro k
      obtain ⟨ha, hb, hc⟩ := hinv k
      simp only [outstanding, hmsg, countP_middle] at hb
      have hio1 : isOutstanding k (ACMsg.request n m) = (n == k) := rfl
      have hio2 : isOutstanding k (ACMsg.respondTrue n) = (n == k) := rfl
      rw [hio1] at hb
      refine ⟨?_, ?_, ?_⟩
      · by_cases hk : k = m
        · subst hk
          simp only [updName_self]
          omega
        · simp only [updName_ne _ _ _ _ hk]
          exact ha
      · simp only [outstanding, List.countP_cons, List.countP_append, hio2]
        by_cases hk : k = m
        · subst hk
          simp only [updName_self]
          push_cast at hb ⊢
          omega
        · simp only [updName_ne _ _ _ _ hk]
          push_cast at hb ⊢
          omega
      · by_cases hk : k = m
        · subst hk
          simp only [updName_self]
          omega
        · simp only [updName_ne _ _ _ _ hk]
          exact hc
  | recvRequestReject n m l1 l2 hmsg =>
      intro k
      obtain ⟨ha, hb, hc⟩ := hinv k
      simp only [outstanding, hmsg, countP_middle] at hb
      have hio1 : isOutstanding k (ACMsg.request n m) = (n == k) := rfl
      have hio2 : isOutstanding k (ACMsg.respondFalse n) = (n == k) := rfl
      rw [hio1] at hb
      refine ⟨ha, ?_, hc⟩
      simp only [outstanding, List.countP_cons, List.countP_append, hio2]
      push_cast at hb ⊢
      omega
  | recvRespondFalse n l1 l2 hmsg =>
      intro k
      obtain ⟨ha, hb, hc⟩ := hinv k
      simp only [outstanding, hmsg, countP_middle] at hb
      have hio : isOutstanding k (ACMsg.respondFalse n) = (n == k) := rfl
      rw [hio] at hb
      refine ⟨ha, ?_, ?_⟩
      · simp only [outstanding, List.countP_append]
        by_cases hk : k = n
        · subst hk
          simp only [updName_self, beq_self_eq_true, if_true] at hb ⊢
          push_cast at hb ⊢
          omega
        · have hne : (n == k) = false := by
            simp [Ne.symm hk]
          simp only [updName_ne _ _ _ _ hk, hne, Bool.false_eq_true, if_false] at hb ⊢
          push_cast at hb ⊢
          omega
      · by_cases hk : k = n
        · subst hk
          simp only [updName_self]
          omega
        · simp only [updName_ne _ _ _ _ hk]
          exact hc
  | recvRespondTrue n l1 l2 hmsg =>
      intro k
      obtain ⟨ha, hb, hc⟩ := hinv k
      simp only [outstanding, hmsg, countP_middle] at hb
      have hio : isOutstanding k (ACMsg.respondTrue n) = (n == k) := rfl
      rw [hio] at hb
      refine ⟨?_, ?_, hc⟩
      · by_cases hk : k = n
        · subst hk
          simp only [updName_self]
          omega
        · simp only [updName_ne _ _ _ _ hk]
          exact ha
      · simp only [outstanding, List.countP_append]
        by_cases hk : k = n
        · subst hk
          simp only [updName_self, beq_self_eq_true, if_true] at hb ⊢
          push_cast at hb ⊢
          omega
        · have hne : (n == k) = false := by
            simp [Ne.symm hk]
          simp only [updName_ne _ _ _ _ hk, hne, Bool.false_eq_true, if_false] at hb ⊢
          push_cast at hb ⊢
          omega
  | minusOne n h =>
      intro k
      obtain ⟨ha, hb, hc⟩ := hinv k
      refine ⟨?_, ?_, ?_⟩
      · by_cases hk : k = n
        · subst hk
          simp only [updName_self]
          omega
        · simp only [updName_ne _ _ _ _ hk]
          exact ha
      · simp only [outstanding] at hb ⊢
        by_cases hk : k = n
        · subst hk
          simp only [updName_self]
          omega
        · simp only [updName_ne _ _ _ _ hk]
          omega
      · by_cases hk : k = n
        · subst hk
          simp only [updName_self]
          omega
        · simp only [updName_ne _ _ _ _ hk]
          exact hc

theorem acReachable_inv (maxMem : Name → Int) (hmax : ∀ n, 0 ≤ maxMem n)
    (s : ACNet) (h : Relation.ReflTransGen ACStep (acInit maxMem) s) :
    ACInv s := by
  induction h with
  | refl =>
      intro n
      refine ⟨le_refl 0, ?_, hmax n⟩
      simp [acInit, outstanding]
  | tail hsteps hstep ih => exact acStep_preserves hstep ih

/-- C1: in every state of the adaptive-continuous quota system
reachable from the initial state (for any per-node nonnegative
adaptive_max_memory assignment), every node satisfies
0 ≤ adaptive_memory_used ≤ adaptive_max_memory; moreover every
decrement fires with a positive counter: a RESPOND(False) can only be
delivered to a node whose counter is positive (the reply to its own
earlier increment), and whenever a scheduled
adaptive_memory_used_minus_one can fire (a loaded AC reservation
exists) the counter is positive, so its assert never fails. -/
theorem c1_adaptive_memory_used_bounds (maxMem : Name → Int)
    (hmax : ∀ n, 0 ≤ maxMem n) (s : ACNet)
    (h : Relation.ReflTransGen ACStep (acInit maxMem) s) :
    ∀ n, 0 ≤ s.used n ∧ s.used n ≤ s.maxMem n ∧
      (0 < s.loaded n → 0 < s.used n) ∧
      (∀ l1 l2, s.msgs = l1 ++ ACMsg.respondFalse n :: l2 → 0 < s.used n) := by
  intro n
  obtain ⟨ha, hb, hc⟩ := acReachable_inv maxMem hmax s h n
  have hout : 0 ≤ outstanding s n := by
    simp [outstanding]
  refine ⟨by omega, hc, by omega, ?_⟩
  intro l1 l2 hmsg
  have hpos : 0 < s.msgs.countP (isOutstanding n) := by
    rw [hmsg, countP_middle]
    have : isOutstanding n (ACMsg.respondFalse n) = (n == n) := rfl
    simp [this]
  have : 0 < outstanding s n := by
    simp only [outstanding]
    exact_mod_cast hpos
  omega

/-- C1 witness: after one start increment on node 1 (quota 2) the
bounds hold at node 1 of the resulting reachable state. -/
theorem c1_adaptive_memory_used_bounds_witness :
    0 ≤ ({ acInit (fun _ => 2) with used := updName (acInit (fun _ => 2)).used 1 ((acInit (fun _ => 2)).used 1 + 1), msgs := ACMsg.request 1 2 :: (acInit (fun _ => 2)).msgs } : ACNet).used 1 ∧
    ({ acInit (fun _ => 2) with used := updName (acInit (fun _ => 2)).used 1 ((acInit (fun _ => 2)).used 1 + 1), msgs := ACMsg.request 1 2 :: (acInit (fun _ => 2)).msgs } : ACNet).used 1 ≤
      ({ acInit (fun _ => 2) with used := updName (acInit (fun _ => 2)).used 1 ((acInit (fun _ => 2)).used 1 + 1), msgs := ACMsg.request 1 2 :: (acInit (fun _ => 2)).msgs } : ACNet).maxMem 1 ∧
    (0 < ({ acInit (fun _ => 2) with used := updName (acInit (fun _ => 2)).used 1 ((acInit (fun _ => 2)).used 1 + 1), msgs := ACMsg.request 1 2 :: (acInit (fun _ => 2)).msgs } : ACNet).loaded 1 →
      0 < ({ acInit (fun _ => 2) with used := updName (acInit (fun _ => 2)).used 1 ((acInit (fun _ => 2)).used 1 + 1), msgs := ACMsg.request 1 2 :: (acInit (fun _ => 2)).msgs } : ACNet).used 1) :=
  match c1_adaptive_memory_used_bounds (fun _ => 2) (fun _ => by norm_num) _
    (Relation.ReflTransGen.tail Relation.ReflTransGen.refl
      (ACStep.startRequest (acInit (fun _ => 2)) 1 2 (by norm_num [acInit]))) 1 with
  | ⟨h1, h2, h3, _⟩ => ⟨h1, h2, h3⟩
